import Mathlib

/-!
# Stealth-lock: keystream transform, text codec and stego container

A shallow embedding of `src/shealth_lock.cpp`.

* A C++ `unsigned char` is a `Byte` (`Fin 256`); a `std::string` and a
  `vector<unsigned char>` are both `List Byte`, the contents of a file too.
* `unsigned long long` and `size_t` values are natural numbers; where the
  source increments a `size_t` the model reduces modulo `2 ^ 64`.
* The 32-bit `int` accumulators of the Base64 helpers are integers kept in
  the range `[-2^31, 2^31)` by `wrap32` (two's complement wrap-around).
* An input path is given by its directory `dirname_of(path)` and its base name
  `basename_of(path)`; the calls into `std::filesystem` and `std::string` that
  the naming code makes (`extension`, `stem`, `operator/`, `rfind`) are
  modelled after the C++ standard.
-/

namespace StealthLock

/-- An `unsigned char`. -/
abbrev Byte := Fin 256

/-- The conversion `static_cast<unsigned char>(n)` of an unsigned value. -/
def toByte (n : Nat) : Byte := ⟨n % 256, Nat.mod_lt n (by decide)⟩

namespace BaseCrypto

/-- The function `BaseCrypto::keyByteFromKey`:
`shift = (i % 8) * 8; b = (unsigned char)((key >> shift) & 0xFF)`. -/
def keyByteFromKey (key : Nat) (i : Nat) : Byte :=
  let shift := (i % 8) * 8
  toByte ((key >>> shift) &&& 0xFF)

/-- The function `BaseCrypto::applyXor`:
`k = keyByteFromKey(key, index); return (unsigned char)(dataByte ^ k)`. -/
def applyXor (dataByte : Byte) (key : Nat) (index : Nat) : Byte :=
  let k := keyByteFromKey key index
  toByte (dataByte.val ^^^ k.val)

/-- The byte loop that every file operation of the source repeats verbatim:
`while (fin.get(buffer)) { fout.put(applyXor(byte, key, idx)); ++idx; }`.
The first argument after the key is the current value of the `size_t idx`,
the list is what remains of the input stream, the result is what is put on the
output stream.  The progress bar only writes to the console and is left out. -/
def xorLoop (key : Nat) : Nat → List Byte → List Byte
  | _, [] => []
  | idx, b :: rest => applyXor b key idx :: xorLoop key ((idx + 1) % 2 ^ 64) rest

end BaseCrypto

open BaseCrypto

/-! ## File and image operations

Each operation is modelled from the point where both streams are open: the
argument is the content of the input file, the result the content written to
the output file (`size_t idx = 0` before the loop). -/

namespace ImageCrypto

/-- The function `ImageCrypto::encrypt`, the bytes written to `fout`. -/
def encrypt (input : List Byte) (key : Nat) : List Byte := xorLoop key 0 input

/-- The function `ImageCrypto::decrypt`, the bytes written to `fout`. -/
def decrypt (input : List Byte) (key : Nat) : List Byte := xorLoop key 0 input

end ImageCrypto

namespace FileCrypto

/-- The function `FileCrypto::encrypt`, the bytes written to `fout`. -/
def encrypt (input : List Byte) (key : Nat) : List Byte := xorLoop key 0 input

/-- The function `FileCrypto::decrypt`, the bytes written to `fout`. -/
def decrypt (input : List Byte) (key : Nat) : List Byte := xorLoop key 0 input

end FileCrypto

/-! ## Base64 helpers -/

/-- The bytes of an ASCII string literal of the source. -/
def ascii (s : String) : List Byte := s.toList.map (fun c => toByte c.toNat)

/-- Two's complement wrap-around of an integer into the range of a 32-bit
`int`, `[-2^31, 2^31)`. -/
def wrap32 (x : Int) : Int := (x + 2147483648) % 4294967296 - 2147483648

/-- The `static const char table[]` of `base64Encode`. -/
def table : List Byte :=
  ascii "ABCDEFGHIJKLMNOPQRSTUVWXYZabcdefghijklmnopqrstuvwxyz0123456789+/"

/-- The element `table[i]` for an `int` index `i`; the source masks the index
with `0x3F`, so it is always within the 64 symbols. -/
def tableAt (i : Int) : Byte := table.getD i.toNat 0

/-- The `static const int T[256]` of `base64Decode`.  The initialiser list of
the source has 123 entries (indices 0..122); the remaining 133 elements of the
array are value-initialised, that is, they are zero. -/
def T : List Int :=
  [-1, -1, -1, -1, -1, -1, -1, -1, -1, -1, -1, -1, -1, -1, -1, -1,
   -1, -1, -1, -1, -1, -1, -1, -1, -1, -1, -1, -1, -1, -1, -1, -1,
   -1, -1, -1, -1, -1, -1, -1, -1, -1, -1, -1, 62, -1, -1, -1, 63,
   52, 53, 54, 55, 56, 57, 58, 59, 60, 61, -1, -1, -1, 64, -1, -1,
   -1, 0, 1, 2, 3, 4, 5, 6, 7, 8, 9, 10, 11, 12, 13, 14,
   15, 16, 17, 18, 19, 20, 21, 22, 23, 24, 25, -1, -1, -1, -1, -1,
   -1, 26, 27, 28, 29, 30, 31, 32, 33, 34, 35, 36, 37, 38, 39, 40,
   41, 42, 43, 44, 45, 46, 47, 48, 49, 50, 51]
  ++ List.replicate 133 0

/-- The element `T[c]` for an `unsigned char c`; the index is always within the
256 elements. -/
def TAt (c : Byte) : Int := T.getD c.val 0

namespace base64Encode

/-- The inner loop of `base64Encode`,
`while (valb >= 0) { encoded.push_back(table[(val >> valb) & 0x3F]); valb -= 6; }`,
returning `encoded` and `valb`.  On the two's complement `int` the shift
`val >> valb` is the floor division by `2 ^ valb` and `& 0x3F` the remainder
modulo 64.  The first argument bounds the number of iterations; `loop` passes
`valb / 6 + 1`, the exact number the loop makes. -/
def drain (val : Int) : Nat → Int → List Byte → List Byte × Int
  | 0, valb, encoded => (encoded, valb)
  | fuel + 1, valb, encoded =>
    if valb ≥ 0 then
      drain val fuel (valb - 6) (encoded ++ [tableAt (val / 2 ^ valb.toNat % 64)])
    else (encoded, valb)

/-- The `for (unsigned char c : data)` loop of `base64Encode`, returning the
final `val`, `valb` and `encoded`: `val = (val << 8) + c; valb += 8;` followed
by the inner loop. -/
def loop : List Byte → Int → Int → List Byte → Int × Int × List Byte
  | [], val, valb, encoded => (val, valb, encoded)
  | c :: rest, val, valb, encoded =>
    let val1 := wrap32 (wrap32 (val * 256) + c.val)
    let valb1 := valb + 8
    let r := drain val1 (valb1.toNat / 6 + 1) valb1 encoded
    loop rest val1 r.2 r.1

/-- The padding loop `while (encoded.size() % 4) encoded.push_back('=')`; the
first argument bounds the number of iterations (three always suffice). -/
def pad : Nat → List Byte → List Byte
  | 0, encoded => encoded
  | fuel + 1, encoded =>
    if encoded.length % 4 ≠ 0 then pad fuel (encoded ++ [toByte 61]) else encoded

end base64Encode

/-- The end of `base64Encode`, from the state `(val, valb, encoded)` the loop
leaves: the flush
`if (valb > -6) encoded.push_back(table[((val << 8) >> (valb + 8)) & 0x3F])`
and the padding. -/
def base64Encode.finish (r : Int × Int × List Byte) : List Byte :=
  let val := r.1
  let valb := r.2.1
  let encoded := r.2.2
  let encoded1 :=
    if valb > -6 then
      encoded ++ [tableAt (wrap32 (val * 256) / 2 ^ (valb + 8).toNat % 64)]
    else encoded
  base64Encode.pad 3 encoded1

/-- The function `base64Encode`: `int val = 0, valb = -6`, the loop over the
data, the flush and the padding. -/
def base64Encode (data : List Byte) : List Byte :=
  base64Encode.finish (base64Encode.loop data 0 (-6) [])

/-- The Base64 symbol of a 6-bit value in the alphabet of RFC 4648. -/
def sym (n : Nat) : Byte := table.getD n 0

/-- Reference encoder: the padded Base64 of RFC 4648, one group of three bytes
at a time (four symbols of six bits, most significant first; a final group of
one or two bytes gives two or three symbols, the last one zero-filled, and
`=` padding). -/
def rfc4648Encode : List Byte → List Byte
  | a :: b :: c :: rest =>
    sym (a.val / 4) :: sym (a.val % 4 * 16 + b.val / 16)
      :: sym (b.val % 16 * 4 + c.val / 64) :: sym (c.val % 64) :: rfc4648Encode rest
  | [a, b] =>
    [sym (a.val / 4), sym (a.val % 4 * 16 + b.val / 16), sym (b.val % 16 * 4), toByte 61]
  | [a] => [sym (a.val / 4), sym (a.val % 4 * 16), toByte 61, toByte 61]
  | [] => []

namespace base64Decode

/-- The `for (unsigned char c : s)` loop of `base64Decode` with its two
`break`s: `val = (val << 6) + T[c]; valb += 6;
if (valb >= 0) { out.push_back((val >> valb) & 0xFF); valb -= 8; }`. -/
def loop : List Byte → Int → Int → List Byte → List Byte
  | [], _, _, out => out
  | c :: rest, val, valb, out =>
    if TAt c = -1 then out
    else if TAt c = 64 then out
    else
      let val1 := wrap32 (wrap32 (val * 64) + TAt c)
      let valb1 := valb + 6
      if valb1 ≥ 0 then
        loop rest val1 (valb1 - 8) (out ++ [toByte (val1 / 2 ^ valb1.toNat % 256).toNat])
      else loop rest val1 valb1 out

end base64Decode

/-- The function `base64Decode`: `int val = 0, valb = -8` and the loop over the
string. -/
def base64Decode (s : List Byte) : List Byte := base64Decode.loop s 0 (-8) []

namespace TextCrypto

/-- The function `TextCrypto::encryptInput`, the string `encoded` that is
printed (and saved): the text is XOR-ed byte by byte (`size_t idx = 0`, incremented per
byte) into `encrypted`, which is then Base64-encoded. -/
def encryptInput (text : List Byte) (key : Nat) : List Byte :=
  base64Encode (xorLoop key 0 text)

/-- The function `TextCrypto::decryptInput`, the string `decrypted` that is
printed (and saved): the input is Base64-decoded and the bytes are XOR-ed. -/
def decryptInput (encBase64 : List Byte) (key : Nat) : List Byte :=
  xorLoop key 0 (base64Decode encBase64)

end TextCrypto

/-! ## Streams

The two stream behaviours of the standard library that the stego code relies
on: an input stream whose `read` sets `failbit` when it comes up short, and an
output stream on which nothing is written any more once `failbit` is set. -/

/-- An input file stream: the bytes from the get position to the end of the
file, and whether `failbit` is set. -/
structure IStream where
  rest : List Byte
  fail : Bool
deriving DecidableEq, Repr

/-- The call `fin.read(buf, n)`: the bytes stored into the buffer and the
stream afterwards.  On a failed stream nothing is read; when fewer than `n`
bytes remain they are all stored and `failbit` (with `eofbit`) is set. -/
def IStream.read (s : IStream) (n : Nat) : List Byte × IStream :=
  if s.fail then ([], s)
  else if n ≤ s.rest.length then (s.rest.take n, ⟨s.rest.drop n, false⟩)
  else (s.rest, ⟨[], true⟩)

/-- An output file stream: the bytes written so far, and whether `failbit` is
set. -/
structure OStream where
  written : List Byte
  fail : Bool
deriving DecidableEq, Repr

/-- The insertion `fout << src.rdbuf()` of a whole input file.  It copies every
byte of the source; when it inserts no character at all it sets `failbit`
(C++ standard, [ostream.inserters]). -/
def OStream.insertBuf (o : OStream) (src : List Byte) : OStream :=
  if o.fail then o
  else if src.isEmpty then { o with fail := true }
  else { o with written := o.written ++ src }

/-- The call `fout.write(p, n)` (and a run of `fout.put(c)` calls): a no-op on
a stream whose `failbit` is set. -/
def OStream.write (o : OStream) (bytes : List Byte) : OStream :=
  if o.fail then o else { o with written := o.written ++ bytes }

/-! ## Stego container -/

/-- The eight bytes of a `uint64_t` as they lie in memory on a little-endian
host, which is what `fout.write(reinterpret_cast<const char *>(&nameLen), 8)`
writes. -/
def le64Encode (v : Nat) : List Byte :=
  (List.range 8).map (fun j => toByte (v / 256 ^ j))

/-- The `uint64_t` whose memory holds the given bytes (little-endian host), as
read by `fin.read(reinterpret_cast<char *>(&nameLen), 8)`. -/
def le64Decode (bytes : List Byte) : Nat :=
  bytes.foldr (fun b acc => b.val + 256 * acc) 0

namespace Stego

/-- The constant `const string signature = "STEGOSTR"`. -/
def signature : List Byte := ascii "STEGOSTR"

/-- What `storeFileInImage` depends on besides the contents of the carrier and
of the file to hide.  The output path `out` is computed from the carrier path
alone and is never compared with the path of the file to hide, and
`ofstream fout(out)` truncates `out` before the first byte of `finFile` is
read.  So when the file to hide is the very file `out` (`payloadIsOutput`), its
content is gone by the time the loop reads it; what `finFile` then yields is
whatever part of the output has already reached the file (`readBack`; nothing
as long as the carrier and the trailer fit the buffer of `fout`). -/
structure StoreEnv where
  payloadIsOutput : Bool
  readBack : List Byte
deriving DecidableEq, Repr

/-- The store environment of the ordinary case: the file to hide is not the
output file. -/
def storeApart : StoreEnv := ⟨false, []⟩

/-- The bytes that `finFile` yields in `storeFileInImage`, for a file to hide
whose content before the call is `file`. -/
def payloadRead (senv : StoreEnv) (file : List Byte) : List Byte :=
  if senv.payloadIsOutput then senv.readBack else file

/-- The function `Stego::storeFileInImage` from the point where the three
streams are open (`finImg`, `finFile`, and `fout`, which truncates the output
file): the content of the output file, given the content of the carrier image,
the base name `hiddenFileName = basename_of(file)` of the file to hide and the
content `file` it has before the call.  The loop
`while (finFile.get(buffer)) fout.put(applyXor(byte, key, idx))` with
`size_t idx = 0` puts the transformed bytes of what `finFile` yields. -/
def storeFileInImage (senv : StoreEnv) (image hiddenFileName file : List Byte) (key : Nat) :
    List Byte :=
  let fout : OStream := ⟨[], false⟩
  let fout := fout.insertBuf image
  let fout := fout.write signature
  let nameLen := hiddenFileName.length % 2 ^ 64
  let fout := fout.write (le64Encode nameLen)
  let fout := fout.write hiddenFileName
  let fout := fout.write (xorLoop key 0 (payloadRead senv file))
  fout.written

/-- What `retrieveFileFromImage` depends on besides the bytes of the container:
the answer of `confirm_overwrite_if_exists(outPath)` (true when the path does
not exist or the user answers yes), whether `ofstream fout(outPath)` opens, and
whether `hiddenFileName.resize(n)` succeeds (it throws `std::length_error`
above `max_size()`, which is below `2 ^ 63`, and `std::bad_alloc` when memory
is short).  The output path is identified by the file name, its directory
being that of the container. -/
structure Env where
  confirmOverwrite : List Byte → Bool
  canOpen : List Byte → Bool
  allocatable : Nat → Bool

/-- How a call of `retrieveFileFromImage` ends. -/
inductive Outcome where
  /-- The message "nothing to retrieve" and `return false`. -/
  | nothingToRetrieve
  /-- The message "Failed to read filename length" and `return false`. -/
  | nameLenUnreadable
  /-- The call `hiddenFileName.resize` throws; the exception leaves the function. -/
  | resizeThrows
  /-- The message "Failed to read hidden filename" and `return false`. -/
  | nameUnreadable
  /-- The message "Skipping retrieval" and `return false`. -/
  | skipped
  /-- The message "Failed to open output file" and `return false`. -/
  | outputUnopenable
  /-- The output file `outName` is written with `content`: `return true`. -/
  | retrieved (hiddenFileName outName content : List Byte)
deriving DecidableEq, Repr

/-- Whether the call returned `true`. -/
def Outcome.returnsTrue : Outcome → Bool
  | .retrieved _ _ _ => true
  | _ => false

/-- The output file the call created, as name and content, if any. -/
def Outcome.outputFile : Outcome → Option (List Byte × List Byte)
  | .retrieved _ outName content => some (outName, content)
  | _ => none

/-- A run of `retrieveFileFromImage`: whether the signature warning was
printed, and how the call ended. -/
structure Retrieval where
  warning : Bool
  outcome : Outcome
deriving DecidableEq, Repr

/-- The last part of `retrieveFileFromImage`, once `hiddenFileName` is known:
the output path, the overwrite prompt, the opening of the output file and the
loop `while (fin.get(buffer)) fout.put(applyXor(byte, key, idx))` with
`size_t idx = 0` over the rest of the container. -/
def writeRecovered (env : Env) (key : Nat) (hiddenFileName : List Byte) (fin : IStream) :
    Outcome :=
  let outName := ascii "recovered_" ++ hiddenFileName
  if !env.confirmOverwrite outName then .skipped
  else if !env.canOpen outName then .outputUnopenable
  else .retrieved hiddenFileName outName (xorLoop key 0 fin.rest)

/-- The function `Stego::retrieveFileFromImage` from the point where the
container is open: `container` is the content of the file, so `fileLen` is its
length.  The pairs `r1`, `r2`, `r3` are the three `fin.read` calls (signature,
`nameLen`, name); a short read of the signature leaves the rest of the
zero-initialised `sigBuf` untouched. -/
def retrieveFileFromImage (env : Env) (container : List Byte)
    (originalImageSize : Nat) (key : Nat) : Retrieval :=
  let fileLen := container.length
  if originalImageSize ≥ fileLen then ⟨false, .nothingToRetrieve⟩
  else
    let fin0 : IStream := ⟨container.drop originalImageSize, false⟩
    let r1 := fin0.read 8
    let sigBuf := r1.1 ++ List.replicate (8 - r1.1.length) (toByte 0)
    let warning := decide (sigBuf ≠ signature)
    let r2 := r1.2.read 8
    if r2.2.fail then ⟨warning, .nameLenUnreadable⟩
    else
      let nameLen := le64Decode r2.1
      if nameLen > 0 then
        if !env.allocatable nameLen then ⟨warning, .resizeThrows⟩
        else
          let r3 := r2.2.read nameLen
          if r3.2.fail then ⟨warning, .nameUnreadable⟩
          else ⟨warning, writeRecovered env key r3.1 r3.2⟩
      else ⟨warning, writeRecovered env key (ascii "recovered_file.bin") r2.2⟩

end Stego

/-! ## Key derivation -/

namespace UserManager

/-- The function `UserManager::customHash`: `hash = 5381`, then for every byte
`c` of the password `hash = ((hash << 5) + hash) + c`, each operation on an
`unsigned long long`, that is, modulo `2 ^ 64`. -/
def customHash (password : List Byte) : Nat :=
  password.foldl (fun hash c => (((hash <<< 5) % 2 ^ 64 + hash) % 2 ^ 64 + c.val) % 2 ^ 64) 5381

/-- The function `UserManager::getKey`: `return customHash(password)`. -/
def getKey (password : List Byte) : Nat := customHash password

end UserManager

/-! ## Output naming

The naming code works on three values derived from the input path:
`dir = dirname_of(path)`, `base = basename_of(path)` (the file name of the
path, which contains no directory separator) and `extension_of(path)`, which
`std::filesystem` defines as the extension of that file name.  The functions
below take `dir` and `base`. -/

/-- The call `s.rfind(pat)` of `std::string`: the position of the last
occurrence of `pat` in `s`, with `none` for `npos`. -/
def rfind : List Byte → List Byte → Option Nat
  | [], pat => if pat = [] then some 0 else none
  | c :: cs, pat =>
    match rfind cs pat with
    | some i => some (i + 1)
    | none => if pat <+: c :: cs then some 0 else none

/-- The library call `fs::path(filename).extension().string()` for a file name
without directory separator.  There is no extension when the name is empty,
when it has at most two characters and starts with a period (`.`, `..`, `.a`),
when it has no period, or when its only period is the first character;
otherwise the extension starts at the last period. -/
def extension (filename : List Byte) : List Byte :=
  if filename = [] then []
  else if filename.length ≤ 2 ∧ filename.head? = some (toByte 46) then []
  else
    match rfind filename [toByte 46] with
    | some (pos + 1) => filename.drop (pos + 1)
    | _ => []

/-- The library call `fs::path(filename).stem().string()` for a file name
without directory separator: the file name without its extension. -/
def stem (filename : List Byte) : List Byte :=
  if filename = [] then []
  else if filename.length ≤ 2 ∧ filename.head? = some (toByte 46) then filename
  else
    match rfind filename [toByte 46] with
    | some (pos + 1) => filename.take (pos + 1)
    | _ => filename

/-- The library expression `(fs::path(dir) / fs::path(name)).string()` on a
POSIX system: an absolute `name` replaces `dir`; otherwise a separator is
appended to `dir` when `dir` has a file name (is not empty and does not end
with a separator), and then `name`. -/
def pathJoin (dir name : List Byte) : List Byte :=
  if name.head? = some (toByte 47) then name
  else if dir = [] ∨ dir.getLast? = some (toByte 47) then dir ++ name
  else dir ++ [toByte 47] ++ name

/-- The string `outName` of `make_output_same_dir`, with `ext` the extension of
the input path: `outExt = forcedExt.empty() ? ext : forcedExt`,
`nameNoExt = base.substr(0, base.size() - ext.size())` when `ext` is not empty,
`outName = nameNoExt + suffix + outExt`. -/
def make_output_same_dir.outName (base suffix forcedExt : List Byte) : List Byte :=
  let ext := extension base
  let outExt := if forcedExt = [] then ext else forcedExt
  let nameNoExt := if ext ≠ [] then base.take (base.length - ext.length) else base
  nameNoExt ++ suffix ++ outExt

/-- The function `make_output_same_dir`: the path `dir / outName`. -/
def make_output_same_dir (dir base suffix forcedExt : List Byte) : List Byte :=
  pathJoin dir (make_output_same_dir.outName base suffix forcedExt)

namespace ImageCrypto

/-- The base name of the output of `ImageCrypto::encrypt`. -/
def encryptOutName (base : List Byte) : List Byte :=
  make_output_same_dir.outName base (ascii "_enc")
    (if extension base = [] then ascii ".img" else ascii "")

/-- The path `out` of `ImageCrypto::encrypt`:
`make_output_same_dir(in, "_enc", extension_of(in).empty() ? ".img" : "")`. -/
def encryptOutPath (dir base : List Byte) : List Byte :=
  make_output_same_dir dir base (ascii "_enc")
    (if extension base = [] then ascii ".img" else ascii "")

/-- The base name of the output of `ImageCrypto::decrypt`. -/
def decryptOutName (base : List Byte) : List Byte :=
  make_output_same_dir.outName base (ascii "_dec") (ascii ".jpg")

/-- The path `out` of `ImageCrypto::decrypt`:
`make_output_same_dir(in, "_dec", ".jpg")`. -/
def decryptOutPath (dir base : List Byte) : List Byte :=
  make_output_same_dir dir base (ascii "_dec") (ascii ".jpg")

end ImageCrypto

namespace FileCrypto

/-- The base name of the output of `FileCrypto::encrypt`. -/
def encryptOutName (base : List Byte) : List Byte :=
  make_output_same_dir.outName base (ascii "_enc")
    (if extension base = [] then ascii ".enc" else ascii ".enc")

/-- The path `out` of `FileCrypto::encrypt`:
`make_output_same_dir(in, "_enc", ext.empty() ? ".enc" : ".enc")`. -/
def encryptOutPath (dir base : List Byte) : List Byte :=
  make_output_same_dir dir base (ascii "_enc")
    (if extension base = [] then ascii ".enc" else ascii ".enc")

/-- The string `outName` of `FileCrypto::decrypt`, computed from the base name
in three cases: the name contains `_enc` (`posEnc = base.rfind("_enc")`), the
name ends with `.enc` and is longer than four characters, or neither. -/
def decryptOutName (base : List Byte) : List Byte :=
  match rfind base (ascii "_enc") with
  | some posEnc =>
    let withoutEnc := base.take posEnc
    let ext := extension base
    if ext = ascii ".enc" then
      let stem1 := stem withoutEnc
      let origExt := extension withoutEnc
      if origExt ≠ [] then stem1 ++ origExt else withoutEnc
    else withoutEnc ++ ext
  | none =>
    if base.length > 4 ∧ base.drop (base.length - 4) = ascii ".enc" then
      base.take (base.length - 4)
    else base ++ ascii "_dec"

/-- The path `outPath` of `FileCrypto::decrypt`: `dir / outName`. -/
def decryptOutPath (dir base : List Byte) : List Byte :=
  pathJoin dir (decryptOutName base)

end FileCrypto

namespace Stego

/-- The base name of the output of `Stego::storeFileInImage`. -/
def storeOutName (base : List Byte) : List Byte :=
  make_output_same_dir.outName base (ascii "_stego")
    (if extension base = [] then ascii ".img" else ascii "")

/-- The path `out` of `Stego::storeFileInImage`:
`make_output_same_dir(img, "_stego", extension_of(img).empty() ? ".img" : "")`. -/
def storeOutPath (dir base : List Byte) : List Byte :=
  make_output_same_dir dir base (ascii "_stego")
    (if extension base = [] then ascii ".img" else ascii "")

end Stego

/-! ## Vocabulary of the properties

Observations on a container and on a Base64 string, and two environments,
used to state the properties below. -/

namespace Stego

/-- The eight bytes of a container at offsets `off .. off + 7`. -/
def sigAt (container : List Byte) (off : Nat) : List Byte :=
  (container.drop off).take 8

/-- The value of the length field of a container whose trailer starts at
offset `off`: the eight bytes at offsets `off + 8 .. off + 15`. -/
def nameLenAt (container : List Byte) (off : Nat) : Nat :=
  le64Decode ((container.drop (off + 8)).take 8)

/-- The name carried by a trailer that starts at offset `off`: the bytes after
the length field, or the fixed fallback name when the length field is zero. -/
def nameAt (container : List Byte) (off : Nat) : List Byte :=
  if nameLenAt container off > 0 then
    (container.drop (off + 16)).take (nameLenAt container off)
  else ascii "recovered_file.bin"

/-- The bytes of a container after the name of a trailer that starts at
offset `off`. -/
def payloadAt (container : List Byte) (off : Nat) : List Byte :=
  container.drop (off + 16 + nameLenAt container off)

/-- The container with the eight bytes at offsets `off .. off + 7` replaced. -/
def withSignature (container : List Byte) (off : Nat) (sig : List Byte) : List Byte :=
  container.take off ++ sig ++ container.drop (off + 8)

/-- An environment in which no output path exists yet, every output file can
be opened and every string can be resized. -/
def envAccept : Env := ⟨fun _ => true, fun _ => true, fun _ => true⟩

/-- An environment in which the output path exists and the user answers no to
the overwrite prompt. -/
def envDecline : Env := ⟨fun _ => false, fun _ => true, fun _ => true⟩

/-- An environment that accepts every output path and has unlimited memory, in
which a string can be resized up to `max_size()`, here the value of libstdc++
on a 64-bit system, `2 ^ 62 - 1`; beyond it `resize` throws
`std::length_error`. -/
def envMaxSize : Env :=
  ⟨fun _ => true, fun _ => true, fun n => decide (n ≤ 4611686018427387903)⟩

end Stego

/-- Whether a byte is one of the 64 characters `A-Z`, `a-z`, `0-9`, `+`, `/`. -/
def isAlphabetChar (c : Byte) : Bool :=
  (65 ≤ c.val && c.val ≤ 90) || (97 ≤ c.val && c.val ≤ 122) || (48 ≤ c.val && c.val ≤ 57)
    || c.val == 43 || c.val == 47

/-- The longest run of alphabet characters at the start of a string. -/
def alphabetRun (s : List Byte) : List Byte := s.takeWhile isAlphabetChar

/-- The number written by a byte sequence in base 256, most significant byte
first. -/
def beValue (d : List Byte) : Int := d.foldl (fun v c => v * 256 + (c.val : Int)) 0

/-! ## Keystream lemmas -/

theorem toByte_val (n : Nat) : (toByte n).val = n % 256 := rfl

theorem toByte_of_val (b : Byte) : toByte b.val = b := by
  apply Fin.ext
  simp [toByte_val, Nat.mod_eq_of_lt b.isLt]

theorem keyByteFromKey_val (key i : Nat) :
    (keyByteFromKey key i).val = key / 256 ^ (i % 8) % 256 := by
  have h255 : (0xFF : Nat) = 2 ^ 8 - 1 := by norm_num
  have hpow : (256 : Nat) ^ (i % 8) = 2 ^ (i % 8 * 8) := by
    rw [show (256 : Nat) = 2 ^ 8 by norm_num, ← pow_mul, Nat.mul_comm]
  simp only [keyByteFromKey, toByte_val]
  rw [h255, Nat.and_pow_two_sub_one_eq_mod, Nat.shiftRight_eq_div_pow, hpow]
  norm_num

theorem keyByteFromKey_mod8 (key i j : Nat) (h : i % 8 = j % 8) :
    keyByteFromKey key i = keyByteFromKey key j := by
  simp only [keyByteFromKey, h]

theorem keyByteFromKey_wrap (key i : Nat) :
    keyByteFromKey key (i % 2 ^ 64) = keyByteFromKey key i := by
  apply keyByteFromKey_mod8
  norm_num

theorem applyXor_wrap (d : Byte) (key i : Nat) :
    applyXor d key (i % 2 ^ 64) = applyXor d key i := by
  simp only [applyXor, keyByteFromKey_wrap]

theorem applyXor_applyXor (d : Byte) (key i : Nat) :
    applyXor (applyXor d key i) key i = d := by
  apply Fin.ext
  have hd : d.val < 2 ^ 8 := d.isLt
  have hk : (keyByteFromKey key i).val < 2 ^ 8 := (keyByteFromKey key i).isLt
  have hx : d.val ^^^ (keyByteFromKey key i).val < 256 := by
    simpa using Nat.xor_lt_two_pow hd hk
  simp only [applyXor, toByte_val]
  rw [Nat.mod_eq_of_lt hx, Nat.xor_assoc, Nat.xor_self, Nat.xor_zero]
  exact Nat.mod_eq_of_lt d.isLt

theorem xorLoop_length (key : Nat) (b : List Byte) :
    ∀ idx, (xorLoop key idx b).length = b.length := by
  induction b with
  | nil => intro idx; rfl
  | cons x rest ih => intro idx; simp [xorLoop, ih]

theorem xorLoop_xorLoop (key : Nat) (b : List Byte) :
    ∀ idx, xorLoop key idx (xorLoop key idx b) = b := by
  induction b with
  | nil => intro idx; rfl
  | cons x rest ih => intro idx; simp [xorLoop, ih, applyXor_applyXor]

theorem xorLoop_getElem? (key : Nat) (b : List Byte) :
    ∀ idx i, (xorLoop key idx b)[i]? = (b[i]?).map (fun x => applyXor x key (idx + i)) := by
  induction b with
  | nil => intro idx i; simp [xorLoop]
  | cons x rest ih =>
    intro idx i
    cases i with
    | zero => simp [xorLoop]
    | succ j =>
      simp only [xorLoop, List.getElem?_cons_succ, ih]
      congr 1
      funext y
      have h : ((idx + 1) % 2 ^ 64 + j) % 8 = (idx + (j + 1)) % 8 := by
        norm_num
        omega
      simp only [applyXor, keyByteFromKey_mod8 key _ _ h]

/-- The loop written as a map over the positions of the input. -/
theorem xorLoop_zero_getElem? (key : Nat) (b : List Byte) (i : Nat) :
    (xorLoop key 0 b)[i]? = (b[i]?).map (fun x => applyXor x key i) := by
  simpa using xorLoop_getElem? key b 0 i


/-! ## Stego lemmas -/

open Stego

theorem le64Encode_length (v : Nat) : (le64Encode v).length = 8 := by
  simp [le64Encode]

theorem storeFileInImage_nil (senv : StoreEnv) (n file : List Byte) (key : Nat) :
    storeFileInImage senv [] n file key = [] := by
  simp [storeFileInImage, OStream.insertBuf, OStream.write]

/-- The container written when the file to hide is the output file itself and
nothing is read back: the carrier `c.png` with content `IMG` and the file to
hide `c_stego.png` give 30 bytes, the carrier and the trailer without any
payload byte. -/
theorem storeFileInImage_payload_is_output :
    storeFileInImage ⟨true, []⟩ (ascii "IMG") (ascii "c_stego.png") (ascii "hello") 7
      = ascii "IMG" ++ signature ++ le64Encode 11 ++ ascii "c_stego.png" ∧
    (storeFileInImage ⟨true, []⟩ (ascii "IMG") (ascii "c_stego.png") (ascii "hello") 7).length
      = 30 ∧
    Stego.storeOutName (ascii "c.png") = ascii "c_stego.png" := by
  decide

theorem IStream.read_append (a b : List Byte) :
    IStream.read ⟨a ++ b, false⟩ a.length = (a, ⟨b, false⟩) := by
  simp [IStream.read]

theorem IStream.read_of_le (l : List Byte) (n : Nat) (h : n ≤ l.length) :
    IStream.read ⟨l, false⟩ n = (l.take n, ⟨l.drop n, false⟩) := by
  simp [IStream.read, h]

theorem IStream.read_of_lt (l : List Byte) (n : Nat) (h : l.length < n) :
    IStream.read ⟨l, false⟩ n = (l, ⟨[], true⟩) := by
  have h2 : ¬ n ≤ l.length := by omega
  simp [IStream.read, h2]

theorem IStream.read_failed (l : List Byte) (n : Nat) :
    IStream.read ⟨l, true⟩ n = ([], ⟨l, true⟩) := by
  simp [IStream.read]

/-- The run of `retrieveFileFromImage` on a container cut at the given offset
into eight signature bytes, eight length bytes and a tail. -/
theorem retrieve_split (env : Env) (carrier sig lenBytes tail : List Byte) (key : Nat)
    (hsig : sig.length = 8) (hlen : lenBytes.length = 8) :
    retrieveFileFromImage env (carrier ++ sig ++ lenBytes ++ tail) carrier.length key =
      ⟨decide (sig ≠ signature),
        if le64Decode lenBytes > 0 then
          if !env.allocatable (le64Decode lenBytes) then .resizeThrows
          else if le64Decode lenBytes ≤ tail.length then
            writeRecovered env key (tail.take (le64Decode lenBytes))
              ⟨tail.drop (le64Decode lenBytes), false⟩
          else .nameUnreadable
        else writeRecovered env key (ascii "recovered_file.bin") ⟨tail, false⟩⟩ := by
  have h1 : ¬ (carrier.length ≥ (carrier ++ sig ++ lenBytes ++ tail).length) := by
    simp [hsig, hlen]
  have hdrop : (carrier ++ sig ++ lenBytes ++ tail).drop carrier.length
      = sig ++ (lenBytes ++ tail) := by
    simp [List.append_assoc]
  unfold retrieveFileFromImage
  simp only [h1, if_false, hdrop]
  have hr1 : IStream.read ⟨sig ++ (lenBytes ++ tail), false⟩ 8
      = (sig, ⟨lenBytes ++ tail, false⟩) := by
    have h := IStream.read_append sig (lenBytes ++ tail)
    rwa [hsig] at h
  have hr2 : IStream.read ⟨lenBytes ++ tail, false⟩ 8 = (lenBytes, ⟨tail, false⟩) := by
    have h := IStream.read_append lenBytes tail
    rwa [hlen] at h
  simp only [hr1, hr2, hsig]
  by_cases hpos : le64Decode lenBytes > 0
  · by_cases hal : env.allocatable (le64Decode lenBytes) = true
    · by_cases hle : le64Decode lenBytes ≤ tail.length
      · simp [hpos, hal, hle, IStream.read_of_le]
      · have hlt : tail.length < le64Decode lenBytes := by omega
        simp [hpos, hal, hle, IStream.read_of_lt _ _ hlt]
    · simp [hpos, hal]
  · simp [hpos]

/-! ## Base64 lemmas -/

theorem tableAt_natCast (n : Nat) : tableAt (n : Int) = sym n := by
  simp [tableAt, sym]

set_option maxRecDepth 100000 in
theorem TAt_sym : ∀ i : Fin 64, TAt (sym i.val) = (i.val : Int) := by
  decide

theorem TAt_sym_of_lt (n : Nat) (h : n < 64) : TAt (sym n) = (n : Int) :=
  TAt_sym ⟨n, h⟩

theorem enc_s1 (v : Int) (a : Nat) (ha : a < 256) :
    wrap32 (wrap32 (v * 256) + a) / 4 % 64 = ((a / 4 : Nat) : Int) := by
  unfold wrap32
  omega

theorem enc_s2 (v : Int) (a b : Nat) (hb : b < 256) :
    wrap32 (wrap32 (wrap32 (wrap32 (v * 256) + a) * 256) + b) / 16 % 64
      = ((a % 4 * 16 + b / 16 : Nat) : Int) := by
  unfold wrap32
  omega

theorem enc_s3 (v : Int) (a b c : Nat) (hc : c < 256) :
    wrap32 (wrap32 (wrap32 (wrap32 (wrap32 (wrap32 (v * 256) + a) * 256) + b) * 256) + c)
        / 64 % 64
      = ((b % 16 * 4 + c / 64 : Nat) : Int) := by
  unfold wrap32
  omega

theorem enc_s4 (v : Int) (a b c : Nat) :
    wrap32 (wrap32 (wrap32 (wrap32 (wrap32 (wrap32 (v * 256) + a) * 256) + b) * 256) + c) % 64
      = ((c % 64 : Nat) : Int) := by
  unfold wrap32
  omega

theorem enc_flush1 (v : Int) (a : Nat) :
    wrap32 (wrap32 (wrap32 (v * 256) + a) * 256) / 16 % 64 = ((a % 4 * 16 : Nat) : Int) := by
  unfold wrap32
  omega

theorem enc_flush2 (v : Int) (a b : Nat) :
    wrap32 (wrap32 (wrap32 (wrap32 (wrap32 (v * 256) + a) * 256) + b) * 256) / 64 % 64
      = ((b % 16 * 4 : Nat) : Int) := by
  unfold wrap32
  omega

/-- Three bytes taken by the loop of `base64Encode` from `valb = -6` append
the four symbols of their group and leave `valb = -6`. -/
theorem encode_loop_group (val : Int) (a b c : Byte) (rest enc : List Byte) :
    base64Encode.loop (a :: b :: c :: rest) val (-6) enc =
      base64Encode.loop rest
        (wrap32 (wrap32 (wrap32 (wrap32 (wrap32 (wrap32 (val * 256) + a.val) * 256) + b.val)
          * 256) + c.val))
        (-6)
        (enc ++ [sym (a.val / 4), sym (a.val % 4 * 16 + b.val / 16),
          sym (b.val % 16 * 4 + c.val / 64), sym (c.val % 64)]) := by
  simp [base64Encode.loop, base64Encode.drain]
  rw [enc_s1 val a.val a.isLt, enc_s2 val a.val b.val b.isLt,
    enc_s3 val a.val b.val c.val c.isLt, enc_s4 val a.val b.val c.val]
  simp only [tableAt_natCast]

theorem pad_of_mod4 (fuel : Nat) (enc : List Byte) (h : enc.length % 4 = 0) :
    base64Encode.pad fuel enc = enc := by
  cases fuel with
  | zero => rfl
  | succ n => simp [base64Encode.pad, h]

theorem pad_two (enc : List Byte) (x y : Byte) (h : enc.length % 4 = 0) :
    base64Encode.pad 3 (enc ++ [x, y]) = enc ++ [x, y, toByte 61, toByte 61] := by
  have e2 : (enc.length + 2) % 4 = 2 := by omega
  have e3 : (enc.length + 2 + 1) % 4 = 3 := by omega
  have e4 : (enc.length + 2 + 1 + 1) % 4 = 0 := by omega
  simp [base64Encode.pad, e2, e3, e4]

theorem pad_three (enc : List Byte) (x y z : Byte) (h : enc.length % 4 = 0) :
    base64Encode.pad 3 (enc ++ [x, y, z]) = enc ++ [x, y, z, toByte 61] := by
  have e3 : (enc.length + 3) % 4 = 3 := by omega
  have e4 : (enc.length + 3 + 1) % 4 = 0 := by omega
  simp [base64Encode.pad, e3, e4]

/-- The encoder of the source computes the reference encoding, from any
accumulator value `val` at a group boundary. -/
theorem encode_finish_loop : ∀ (d : List Byte) (val : Int) (enc : List Byte),
    enc.length % 4 = 0 →
    base64Encode.finish (base64Encode.loop d val (-6) enc) = enc ++ rfc4648Encode d
  | [], val, enc, h => by
    simp [base64Encode.loop, base64Encode.finish, rfc4648Encode, pad_of_mod4 _ _ h]
  | [a], val, enc, h => by
    simp [base64Encode.loop, base64Encode.drain, base64Encode.finish]
    rw [enc_s1 val a.val a.isLt, enc_flush1 val a.val]
    simp only [tableAt_natCast, rfc4648Encode]
    exact pad_two enc _ _ h
  | [a, b], val, enc, h => by
    simp [base64Encode.loop, base64Encode.drain, base64Encode.finish]
    rw [enc_s1 val a.val a.isLt, enc_s2 val a.val b.val b.isLt, enc_flush2 val a.val b.val]
    simp only [tableAt_natCast, rfc4648Encode]
    exact pad_three enc _ _ _ h
  | a :: b :: c :: rest, val, enc, h => by
    rw [encode_loop_group, encode_finish_loop rest _ _ (by simp; omega)]
    simp [rfc4648Encode]

theorem base64Encode_eq_rfc4648Encode (d : List Byte) : base64Encode d = rfc4648Encode d := by
  simpa [base64Encode] using encode_finish_loop d 0 [] rfl

theorem dec_b1 (w A B : Int) (ha : 0 ≤ A) (ha2 : A < 256) (hb : 0 ≤ B) (hb2 : B < 256) :
    wrap32 (wrap32 (wrap32 (wrap32 (w * 64) + A / 4) * 64) + (A % 4 * 16 + B / 16)) / 16 % 256
      = A := by
  unfold wrap32
  omega

theorem dec_b2 (w t1 A B C : Int) (hb : 0 ≤ B) (hb2 : B < 256) (hc : 0 ≤ C) (hc2 : C < 256) :
    wrap32 (wrap32 (wrap32 (wrap32 (wrap32 (wrap32 (w * 64) + t1) * 64)
        + (A % 4 * 16 + B / 16)) * 64) + (B % 16 * 4 + C / 64)) / 4 % 256 = B := by
  unfold wrap32
  omega

theorem dec_b3 (w t1 t2 B C : Int) (hc : 0 ≤ C) (hc2 : C < 256) :
    wrap32 (wrap32 (wrap32 (wrap32 (wrap32 (wrap32 (wrap32 (wrap32 (w * 64) + t1) * 64)
        + t2) * 64) + (B % 16 * 4 + C / 64)) * 64) + C % 64) % 256 = C := by
  unfold wrap32
  omega

theorem TAt_pad : TAt (toByte 61) = 64 := by decide

theorem toByte_natCast_toNat (b : Byte) : toByte ((b.val : Int)).toNat = b := by
  simp [toByte_of_val]

theorem decode_sym_step (n : Nat) (h : n < 64) (rest : List Byte) (w valb : Int)
    (out : List Byte) :
    base64Decode.loop (sym n :: rest) w valb out =
      if valb + 6 ≥ 0 then
        base64Decode.loop rest (wrap32 (wrap32 (w * 64) + n)) (valb + 6 - 8)
          (out ++ [toByte (wrap32 (wrap32 (w * 64) + n) / 2 ^ (valb + 6).toNat % 256).toNat])
      else base64Decode.loop rest (wrap32 (wrap32 (w * 64) + n)) (valb + 6) out := by
  have h1 : ¬ ((n : Int) = -1) := by omega
  have h2 : ¬ ((n : Int) = 64) := by omega
  simp only [base64Decode.loop, TAt_sym_of_lt n h, h1, h2, if_false]

theorem decode_pad_step (rest : List Byte) (w valb : Int) (out : List Byte) :
    base64Decode.loop (toByte 61 :: rest) w valb out = out := by
  simp [base64Decode.loop, TAt_pad]

theorem decode_loop_group (w : Int) (a b c : Byte) (rest out : List Byte) :
    base64Decode.loop (sym (a.val / 4) :: sym (a.val % 4 * 16 + b.val / 16)
        :: sym (b.val % 16 * 4 + c.val / 64) :: sym (c.val % 64) :: rest) w (-8) out =
      base64Decode.loop rest
        (wrap32 (wrap32 (wrap32 (wrap32 (wrap32 (wrap32 (wrap32 (wrap32 (w * 64)
          + ((a.val / 4 : Nat) : Int)) * 64)
          + ((a.val % 4 * 16 + b.val / 16 : Nat) : Int)) * 64)
          + ((b.val % 16 * 4 + c.val / 64 : Nat) : Int)) * 64) + ((c.val % 64 : Nat) : Int)))
        (-8) (out ++ [a, b, c]) := by
  have ha := a.isLt
  have hb := b.isLt
  have hc := c.isLt
  rw [decode_sym_step _ (by omega), if_neg (by norm_num)]
  rw [decode_sym_step _ (by omega), if_pos (by norm_num)]
  rw [decode_sym_step _ (by omega), if_pos (by norm_num)]
  rw [decode_sym_step _ (by omega), if_pos (by norm_num)]
  have ha0 : (0 : Int) ≤ (a.val : Int) := Int.ofNat_nonneg _
  have hb0 : (0 : Int) ≤ (b.val : Int) := Int.ofNat_nonneg _
  have hc0 : (0 : Int) ≤ (c.val : Int) := Int.ofNat_nonneg _
  have ha1 : (a.val : Int) < 256 := by exact_mod_cast ha
  have hb1 : (b.val : Int) < 256 := by exact_mod_cast hb
  have hc1 : (c.val : Int) < 256 := by exact_mod_cast hc
  simp
  rw [dec_b1 w _ _ ha0 ha1 hb0 hb1, dec_b2 w _ _ _ _ hb0 hb1 hc0 hc1, dec_b3 w _ _ _ _ hc0 hc1]
  simp [toByte_of_val]

/-- Decoding the reference encoding gives the bytes back, from any accumulator
value at a group boundary. -/
theorem decode_rfc4648Encode : ∀ (d : List Byte) (w : Int) (out : List Byte),
    base64Decode.loop (rfc4648Encode d) w (-8) out = out ++ d
  | [], w, out => by simp [rfc4648Encode, base64Decode.loop]
  | [a], w, out => by
    have ha := a.isLt
    have ha0 : (0 : Int) ≤ (a.val : Int) := Int.ofNat_nonneg _
    have ha1 : (a.val : Int) < 256 := by exact_mod_cast ha
    simp only [rfc4648Encode]
    rw [decode_sym_step _ (by omega), if_neg (by norm_num)]
    rw [decode_sym_step _ (by omega), if_pos (by norm_num)]
    rw [decode_pad_step]
    simp
    have h := dec_b1 w a.val 0 ha0 ha1 (le_refl 0) (by norm_num)
    simp at h
    rw [h]
    simp [toByte_of_val]
  | [a, b], w, out => by
    have ha := a.isLt
    have hb := b.isLt
    have ha0 : (0 : Int) ≤ (a.val : Int) := Int.ofNat_nonneg _
    have hb0 : (0 : Int) ≤ (b.val : Int) := Int.ofNat_nonneg _
    have ha1 : (a.val : Int) < 256 := by exact_mod_cast ha
    have hb1 : (b.val : Int) < 256 := by exact_mod_cast hb
    simp only [rfc4648Encode]
    rw [decode_sym_step _ (by omega), if_neg (by norm_num)]
    rw [decode_sym_step _ (by omega), if_pos (by norm_num)]
    rw [decode_sym_step _ (by omega), if_pos (by norm_num)]
    rw [decode_pad_step]
    simp
    have h := dec_b2 w (a.val / 4) a.val b.val 0 hb0 hb1 (le_refl 0) (by norm_num)
    simp at h
    rw [dec_b1 w _ _ ha0 ha1 hb0 hb1, h]
    simp [toByte_of_val]
  | a :: b :: c :: rest, w, out => by
    simp only [rfc4648Encode]
    rw [decode_loop_group, decode_rfc4648Encode rest]
    simp

theorem base64Decode_base64Encode (d : List Byte) : base64Decode (base64Encode d) = d := by
  rw [base64Encode_eq_rfc4648Encode]
  simpa [base64Decode] using decode_rfc4648Encode d 0 []

/-- The decoder reads nothing beyond the first byte whose table entry is `-1`
or `64`. -/
theorem base64Decode_loop_takeWhile : ∀ (s : List Byte) (w valb : Int) (out : List Byte),
    base64Decode.loop (s.takeWhile (fun c => decide (TAt c ≠ -1 ∧ TAt c ≠ 64))) w valb out
      = base64Decode.loop s w valb out
  | [], w, valb, out => rfl
  | c :: rest, w, valb, out => by
    by_cases h1 : TAt c = -1
    · simp [List.takeWhile, base64Decode.loop, h1]
    · by_cases h2 : TAt c = 64
      · simp [List.takeWhile, base64Decode.loop, h1, h2]
      · simp only [List.takeWhile, h1, h2, ne_eq, not_false_eq_true, and_self, decide_True,
          base64Decode.loop, if_false]
        split
        · exact base64Decode_loop_takeWhile rest _ _ _
        · exact base64Decode_loop_takeWhile rest _ _ _

/-! ## The bounded loops run to their exit condition -/

set_option maxRecDepth 4096 in
theorem T_length : T.length = 256 := by
  decide

theorem table_length : table.length = 64 := by
  rfl

/-- With more than `valb / 6` iterations allowed, the inner loop of the encoder
stops because `valb >= 0` fails. -/
theorem drain_exit (val : Int) : ∀ (fuel : Nat) (valb : Int) (enc : List Byte),
    valb < 6 * (fuel : Int) → (base64Encode.drain val fuel valb enc).2 < 0 := by
  intro fuel
  induction fuel with
  | zero =>
    intro valb enc h
    simpa [base64Encode.drain] using h
  | succ m ih =>
    intro valb enc h
    by_cases hv : valb ≥ 0
    · simp only [base64Encode.drain, hv, if_true]
      apply ih
      push_cast at h
      omega
    · simp only [base64Encode.drain, hv, if_false]
      omega

theorem drain_exit_loop (val valb : Int) (enc : List Byte) :
    (base64Encode.drain val (valb.toNat / 6 + 1) valb enc).2 < 0 := by
  apply drain_exit
  push_cast
  omega

/-- Three iterations of the padding loop always reach a length that is a
multiple of four. -/
theorem pad_length_mod4 (enc : List Byte) : (base64Encode.pad 3 enc).length % 4 = 0 := by
  simp only [base64Encode.pad]
  split
  · split
    · split
      · rename_i h1 h2 h3
        simp only [List.length_append, List.length_singleton] at h1 h2 h3 ⊢
        omega
      · rename_i h
        simpa using h
    · rename_i h
      simpa using h
  · rename_i h
    simpa using h

/-! ## Containers cut at an offset -/

theorem container_split (container : List Byte) (off : Nat) :
    container = container.take off ++ sigAt container off
      ++ (container.drop (off + 8)).take 8 ++ container.drop (off + 16) := by
  have h1 : container.drop (off + 8) = (container.drop off).drop 8 := by
    rw [List.drop_drop, Nat.add_comm]
  have h2 : container.drop (off + 16) = (container.drop (off + 8)).drop 8 := by
    rw [List.drop_drop]
  rw [h2, List.append_assoc, List.take_append_drop, h1, sigAt, List.append_assoc,
    List.take_append_drop, List.take_append_drop]

theorem retrieve_too_large (env : Env) (container : List Byte) (carrierLen key : Nat)
    (h : container.length ≤ carrierLen) :
    retrieveFileFromImage env container carrierLen key = ⟨false, .nothingToRetrieve⟩ := by
  simp [retrieveFileFromImage, h]

theorem retrieve_short_header (env : Env) (container : List Byte) (carrierLen key : Nat)
    (h1 : carrierLen < container.length) (h2 : container.length < carrierLen + 16) :
    (retrieveFileFromImage env container carrierLen key).outcome = .nameLenUnreadable := by
  have hn : ¬ (carrierLen ≥ container.length) := by omega
  unfold retrieveFileFromImage
  simp only [hn, if_false]
  by_cases h8 : (container.drop carrierLen).length < 8
  · rw [IStream.read_of_lt _ _ h8]
    simp [IStream.read_failed]
  · have h8le : 8 ≤ (container.drop carrierLen).length := by omega
    rw [IStream.read_of_le _ _ h8le]
    have hlt : ((container.drop carrierLen).drop 8).length < 8 := by
      simp only [List.length_drop] at h8le ⊢
      omega
    simp only [IStream.read_of_lt _ _ hlt]
    simp

/-- The run of `retrieveFileFromImage` on a container in which at least 16
bytes follow the offset. -/
theorem retrieve_at (env : Env) (container : List Byte) (carrierLen key : Nat)
    (h : carrierLen + 16 ≤ container.length) :
    retrieveFileFromImage env container carrierLen key =
      ⟨decide (sigAt container carrierLen ≠ signature),
        if nameLenAt container carrierLen > 0 then
          if !env.allocatable (nameLenAt container carrierLen) then .resizeThrows
          else if carrierLen + 16 + nameLenAt container carrierLen ≤ container.length then
            writeRecovered env key (nameAt container carrierLen)
              ⟨payloadAt container carrierLen, false⟩
          else .nameUnreadable
        else writeRecovered env key (nameAt container carrierLen)
          ⟨payloadAt container carrierLen, false⟩⟩ := by
  have hsig : (sigAt container carrierLen).length = 8 := by
    simp only [sigAt, List.length_take, List.length_drop]; omega
  have hlen : ((container.drop (carrierLen + 8)).take 8).length = 8 := by
    simp only [List.length_take, List.length_drop]; omega
  have hcar : (container.take carrierLen).length = carrierLen := by
    simp only [List.length_take]; omega
  have hsplit := retrieve_split env (container.take carrierLen) (sigAt container carrierLen)
    ((container.drop (carrierLen + 8)).take 8) (container.drop (carrierLen + 16)) key hsig hlen
  rw [← container_split, hcar] at hsplit
  rw [hsplit]
  have htail : (container.drop (carrierLen + 16)).length = container.length - (carrierLen + 16) :=
    List.length_drop _ _
  by_cases hpos : nameLenAt container carrierLen > 0
  · have hpos2 : le64Decode ((container.drop (carrierLen + 8)).take 8) > 0 := hpos
    have hle : (le64Decode ((container.drop (carrierLen + 8)).take 8)
          ≤ (container.drop (carrierLen + 16)).length)
        ↔ (carrierLen + 16 + nameLenAt container carrierLen ≤ container.length) := by
      rw [htail]
      show _ ↔ (carrierLen + 16 + le64Decode ((container.drop (carrierLen + 8)).take 8)
        ≤ container.length)
      omega
    simp only [hpos, hpos2, if_true, hle, nameAt, payloadAt]
    simp only [nameLenAt, List.drop_drop]
  · have hpos2 : ¬ le64Decode ((container.drop (carrierLen + 8)).take 8) > 0 := hpos
    have hz : nameLenAt container carrierLen = 0 := by omega
    simp only [hpos, hpos2, if_false, nameAt, payloadAt, hz, Nat.add_zero]
    simp

theorem withSignature_sigAt (container sig : List Byte) (off : Nat)
    (hsig : sig.length = 8) (h : off + 8 ≤ container.length) :
    sigAt (withSignature container off sig) off = sig := by
  have hcar : (container.take off).length = off := by
    simp only [List.length_take]; omega
  simp only [sigAt, withSignature, List.append_assoc]
  rw [List.drop_left' hcar, List.take_left' hsig]

theorem withSignature_drop (container sig : List Byte) (off k : Nat)
    (hsig : sig.length = 8) (h : off + 8 ≤ container.length) :
    (withSignature container off sig).drop (off + 8 + k) = container.drop (off + 8 + k) := by
  have hcar : (container.take off ++ sig).length = off + 8 := by
    simp only [List.length_append, List.length_take, hsig]; omega
  simp only [withSignature]
  rw [← hcar, List.drop_append, List.drop_drop, hcar, Nat.add_comm]

theorem withSignature_length (container sig : List Byte) (off : Nat)
    (hsig : sig.length = 8) (h : off + 8 ≤ container.length) :
    (withSignature container off sig).length = container.length := by
  simp only [withSignature, List.length_append, List.length_take, List.length_drop, hsig]
  omega

theorem withSignature_nameLenAt (container sig : List Byte) (off : Nat)
    (hsig : sig.length = 8) (h : off + 8 ≤ container.length) :
    nameLenAt (withSignature container off sig) off = nameLenAt container off := by
  have e := withSignature_drop container sig off 0 hsig h
  simp only [Nat.add_zero] at e
  simp only [nameLenAt, e]

theorem withSignature_nameAt (container sig : List Byte) (off : Nat)
    (hsig : sig.length = 8) (h : off + 8 ≤ container.length) :
    nameAt (withSignature container off sig) off = nameAt container off := by
  have e := withSignature_drop container sig off 8 hsig h
  simp only [nameAt, withSignature_nameLenAt container sig off hsig h]
  rw [show off + 16 = off + 8 + 8 by omega, e]

theorem withSignature_payloadAt (container sig : List Byte) (off : Nat)
    (hsig : sig.length = 8) (h : off + 8 ≤ container.length) :
    payloadAt (withSignature container off sig) off = payloadAt container off := by
  have e := withSignature_drop container sig off (8 + nameLenAt container off) hsig h
  simp only [payloadAt, withSignature_nameLenAt container sig off hsig h]
  rw [show off + 16 + nameLenAt container off = off + 8 + (8 + nameLenAt container off) by omega,
    e]

/-! ## Properties of the keystream transform -/

/-- C1: for every key `k` and every byte sequence `b`, the XOR keystream
transform (byte `i` becomes `applyXor b[i] k i`, counting from 0) applied twice
with the same key returns `b`: file decrypt after file encrypt, file encrypt
after file encrypt, and image decrypt after image encrypt all give `b` back. -/
theorem transform_twice_is_identity (b : List Byte) (k : Nat) :
    (∀ i : Nat, (FileCrypto.encrypt b k)[i]? = (b[i]?).map (fun x => applyXor x k i)) ∧
    FileCrypto.decrypt (FileCrypto.encrypt b k) k = b ∧
    FileCrypto.encrypt (FileCrypto.encrypt b k) k = b ∧
    ImageCrypto.decrypt (ImageCrypto.encrypt b k) k = b :=
  ⟨fun i => xorLoop_zero_getElem? k b i, xorLoop_xorLoop k b 0, xorLoop_xorLoop k b 0,
    xorLoop_xorLoop k b 0⟩

/-- C5: for every input `b` and key `k` the four file operations (image
encrypt, image decrypt, file encrypt, file decrypt) write the same output; it
has exactly `|b|` bytes, its byte `i` is `b[i] XOR keyByteFromKey(k, i)` for
every `i < |b|` (and there is no byte `i` for `i ≥ |b|`), and the empty input
gives the empty output. -/
theorem file_operations_write_xor_stream (b : List Byte) (k : Nat) :
    ImageCrypto.decrypt b k = ImageCrypto.encrypt b k ∧
    FileCrypto.encrypt b k = ImageCrypto.encrypt b k ∧
    FileCrypto.decrypt b k = ImageCrypto.encrypt b k ∧
    (ImageCrypto.encrypt b k).length = b.length ∧
    (∀ i : Nat, (ImageCrypto.encrypt b k)[i]? =
      (b[i]?).map (fun x => toByte (x.val ^^^ (keyByteFromKey k i).val))) ∧
    ImageCrypto.encrypt [] k = [] :=
  ⟨rfl, rfl, rfl, xorLoop_length k b 0, fun i => xorLoop_zero_getElem? k b i, rfl⟩

/-- C6: for every key and position `i`, `keyByteFromKey(key, i)` is the byte
number `i mod 8` of the key in little-endian order,
`floor(key / 256^(i mod 8)) mod 256`; so the key byte at position `i + 8` is the
key byte at position `i`, also when `i + 8` wraps around modulo `2^64`. -/
theorem keyByteFromKey_little_endian_period (key i : Nat) :
    (keyByteFromKey key i).val = key / 256 ^ (i % 8) % 256 ∧
    keyByteFromKey key (i + 8) = keyByteFromKey key i ∧
    keyByteFromKey key ((i + 8) % 2 ^ 64) = keyByteFromKey key i := by
  refine ⟨keyByteFromKey_val key i, ?_, ?_⟩
  · exact keyByteFromKey_mod8 key _ _ (by omega)
  · rw [keyByteFromKey_wrap]
    exact keyByteFromKey_mod8 key _ _ (by omega)

/-! ## Properties of the text codec -/

/-- C2: for every byte sequence `t`, the empty one included, and every key `k`,
text decryption undoes text encryption:
`decryptInput (encryptInput t k) k = t`, where `encryptInput` Base64-encodes the
XOR-transformed bytes and `decryptInput` XOR-transforms the Base64-decoded
bytes. -/
theorem text_round_trip (t : List Byte) (k : Nat) :
    TextCrypto.decryptInput (TextCrypto.encryptInput t k) k = t := by
  simp only [TextCrypto.decryptInput, TextCrypto.encryptInput, base64Decode_base64Encode,
    xorLoop_xorLoop]

/-- C7 (the code departs from it): on the string `QUJD~~` the longest run of
alphabet characters is `QUJD`, which decodes to `ABC`, but `base64Decode` does
not stop at the `~`: the table entry of byte 126 is 0, not -1, so the two `~`
are read as two symbols of value 0 and a fourth byte, 0, is produced. -/
theorem base64Decode_reads_past_tilde :
    alphabetRun (ascii "QUJD~~") = ascii "QUJD" ∧
    base64Decode (alphabetRun (ascii "QUJD~~")) = ascii "ABC" ∧
    TAt (toByte 126) = 0 ∧
    base64Decode (ascii "QUJD~~") = ascii "ABC" ++ [toByte 0] := by
  decide

/-! ## Properties of the stego container -/

/-- C4 (the code departs from it): with an empty carrier the container that
`storeFileInImage` writes is empty, whatever the name, the payload and the key
(and wherever the file to hide lies): it is not the signature, length, name and
transformed payload, and its length is not `|C| + 16 + |n| + |P|`. -/
theorem storeFileInImage_empty_carrier (senv : StoreEnv) (n file : List Byte) (key : Nat) :
    storeFileInImage senv [] n file key = [] ∧
    storeFileInImage senv [] n file key ≠
      [] ++ signature ++ le64Encode n.length ++ n ++ xorLoop key 0 file ∧
    (storeFileInImage senv [] n file key).length ≠ 0 + 16 + n.length + file.length := by
  rw [storeFileInImage_nil]
  refine ⟨rfl, ?_, ?_⟩
  · intro h
    have := congrArg List.length h
    simp [signature, ascii, le64Encode_length] at this
  · simp only [List.length_nil]
    omega

/-- C8: for every container, every key and every `carrierLen` at least the
size of the container, `retrieveFileFromImage` ends with "nothing to retrieve":
it returns false, prints no signature warning and creates no output file. -/
theorem retrieve_nothing_to_extract (env : Env) (container : List Byte) (carrierLen key : Nat)
    (h : container.length ≤ carrierLen) :
    retrieveFileFromImage env container carrierLen key = ⟨false, .nothingToRetrieve⟩ ∧
    (retrieveFileFromImage env container carrierLen key).outcome.returnsTrue = false ∧
    (retrieveFileFromImage env container carrierLen key).outcome.outputFile = none := by
  rw [retrieve_too_large env container carrierLen key h]
  exact ⟨rfl, rfl, rfl⟩

/-- Witness of C8: an 11-byte container and `carrierLen = 11`. -/
theorem retrieve_nothing_to_extract_witness :
    (ascii "IMGSTEGOSTR").length ≤ 11 ∧
    retrieveFileFromImage envAccept (ascii "IMGSTEGOSTR") 11 7 = ⟨false, .nothingToRetrieve⟩ :=
  ⟨by decide, (retrieve_nothing_to_extract envAccept (ascii "IMGSTEGOSTR") 11 7 (by decide)).1⟩

/-- When fewer than 16 bytes follow offset `carrierLen`, or fewer bytes than the
length field says follow it, `retrieveFileFromImage` creates no output file.
It returns false at the failed read of the length or at the failed read of the
name, except that for a length the name string cannot be resized to it leaves
through the exception thrown by `resize`, which comes before the read. -/
theorem retrieve_short_trailer_outcome (env : Env) (container : List Byte)
    (carrierLen key : Nat) (hlt : carrierLen < container.length)
    (hshort : container.length < carrierLen + 16 ∨
      container.length < carrierLen + 16 + nameLenAt container carrierLen) :
    (retrieveFileFromImage env container carrierLen key).outcome.returnsTrue = false ∧
    (retrieveFileFromImage env container carrierLen key).outcome.outputFile = none ∧
    (retrieveFileFromImage env container carrierLen key).outcome =
      (if container.length < carrierLen + 16 then .nameLenUnreadable
       else if env.allocatable (nameLenAt container carrierLen) then .nameUnreadable
       else .resizeThrows) := by
  by_cases h16 : container.length < carrierLen + 16
  · rw [retrieve_short_header env container carrierLen key hlt h16]
    simp [h16, Outcome.returnsTrue, Outcome.outputFile]
  · have hlong : container.length < carrierLen + 16 + nameLenAt container carrierLen := by
      cases hshort with
      | inl h => exact absurd h h16
      | inr h => exact h
    have hpos : nameLenAt container carrierLen > 0 := by omega
    have hnot : ¬ (carrierLen + 16 + nameLenAt container carrierLen ≤ container.length) := by
      omega
    rw [retrieve_at env container carrierLen key (by omega)]
    by_cases hal : env.allocatable (nameLenAt container carrierLen) = true
    · simp [h16, hpos, hnot, hal, Outcome.returnsTrue, Outcome.outputFile]
    · simp [h16, hpos, hal, Outcome.returnsTrue, Outcome.outputFile]

/-- C10 (the code departs from it): on the container stored for a 3-byte
carrier, the name `a.txt` and the payload `hello`, a `carrierLen` of 4, one more
than the carrier length, makes the length field the bytes
`00 00 00 00 00 00 00 61`, that is `nameLen = 6989586621679009792`, while only
9 bytes follow the field.  Fewer than `nameLen` bytes follow, but the call does
not return false: `hiddenFileName.resize(nameLen)` comes before the read of the
name and throws, and the exception leaves the function. -/
theorem retrieve_huge_name_length_throws :
    4 < (storeFileInImage storeApart (ascii "IMG") (ascii "a.txt") (ascii "hello") 7).length ∧
    nameLenAt (storeFileInImage storeApart (ascii "IMG") (ascii "a.txt") (ascii "hello") 7) 4
      = 6989586621679009792 ∧
    (storeFileInImage storeApart (ascii "IMG") (ascii "a.txt") (ascii "hello") 7).length
      = 4 + 16 + 9 ∧
    envMaxSize.allocatable 6989586621679009792 = false ∧
    retrieveFileFromImage envMaxSize
      (storeFileInImage storeApart (ascii "IMG") (ascii "a.txt") (ascii "hello") 7) 4 7
      = ⟨true, .resizeThrows⟩ ∧
    (retrieveFileFromImage envMaxSize
      (storeFileInImage storeApart (ascii "IMG") (ascii "a.txt") (ascii "hello") 7)
      4 7).outcome ≠ .nameUnreadable := by
  decide

/-- C9 as stated fails: in the container stored for a 3-byte carrier, the name
`a.txt` and the payload `hello`, 16 + nameLen bytes follow offset 3, yet
`retrieveFileFromImage` does not return true when the user declines to
overwrite the output path. -/
theorem retrieve_declined_despite_full_trailer :
    3 + 16 + nameLenAt (storeFileInImage storeApart (ascii "IMG") (ascii "a.txt") (ascii "hello") 7) 3
      ≤ (storeFileInImage storeApart (ascii "IMG") (ascii "a.txt") (ascii "hello") 7).length ∧
    (retrieveFileFromImage envDecline
      (storeFileInImage storeApart (ascii "IMG") (ascii "a.txt") (ascii "hello") 7)
      3 7).outcome.returnsTrue = false := by
  decide

/-- C9, amended: a signature mismatch does not abort extraction.  For every
container in which at least 16 + nameLen bytes follow offset `carrierLen`, when
the name string can be resized to nameLen, the overwrite of the output path is
confirmed (or the path is free) and the output file opens,
`retrieveFileFromImage` returns true; and the recovered name and payload bytes
are the same whatever eight bytes `sig` stand at offsets
`carrierLen .. carrierLen + 7`: those bytes only decide whether the warning is
printed. -/
theorem retrieve_ignores_signature (env : Env) (container sig : List Byte)
    (carrierLen key : Nat) (hsig : sig.length = 8)
    (h : carrierLen + 16 + nameLenAt container carrierLen ≤ container.length)
    (halloc : nameLenAt container carrierLen = 0 ∨
      env.allocatable (nameLenAt container carrierLen) = true)
    (hconfirm : env.confirmOverwrite (ascii "recovered_" ++ nameAt container carrierLen) = true)
    (hopen : env.canOpen (ascii "recovered_" ++ nameAt container carrierLen) = true) :
    retrieveFileFromImage env container carrierLen key =
      ⟨decide (sigAt container carrierLen ≠ signature),
        .retrieved (nameAt container carrierLen)
          (ascii "recovered_" ++ nameAt container carrierLen)
          (xorLoop key 0 (payloadAt container carrierLen))⟩ ∧
    retrieveFileFromImage env (withSignature container carrierLen sig) carrierLen key =
      ⟨decide (sig ≠ signature),
        .retrieved (nameAt container carrierLen)
          (ascii "recovered_" ++ nameAt container carrierLen)
          (xorLoop key 0 (payloadAt container carrierLen))⟩ := by
  have h8 : carrierLen + 8 ≤ container.length := by omega
  have key1 : ∀ c : List Byte, nameLenAt c carrierLen = nameLenAt container carrierLen →
      nameAt c carrierLen = nameAt container carrierLen →
      payloadAt c carrierLen = payloadAt container carrierLen →
      c.length = container.length →
      retrieveFileFromImage env c carrierLen key =
        ⟨decide (sigAt c carrierLen ≠ signature),
          .retrieved (nameAt container carrierLen)
            (ascii "recovered_" ++ nameAt container carrierLen)
            (xorLoop key 0 (payloadAt container carrierLen))⟩ := by
    intro c e1 e2 e3 e4
    rw [retrieve_at env c carrierLen key (by omega), e1, e2, e3, e4]
    have hle : carrierLen + 16 + nameLenAt container carrierLen ≤ container.length := h
    cases halloc with
    | inl hz => simp [hz, writeRecovered, hconfirm, hopen]
    | inr hal => simp [hal, hle, writeRecovered, hconfirm, hopen]
  refine ⟨key1 container rfl rfl rfl rfl, ?_⟩
  have := key1 (withSignature container carrierLen sig)
    (withSignature_nameLenAt container sig carrierLen hsig h8)
    (withSignature_nameAt container sig carrierLen hsig h8)
    (withSignature_payloadAt container sig carrierLen hsig h8)
    (withSignature_length container sig carrierLen hsig h8)
  rw [withSignature_sigAt container sig carrierLen hsig h8] at this
  exact this

/-- Witness of C9, amended: the stored container of the round-trip witness,
and the same container with its signature replaced by eight `X`. -/
theorem retrieve_ignores_signature_witness :
    (ascii "XXXXXXXX").length = 8 ∧
    3 + 16 + nameLenAt (storeFileInImage storeApart (ascii "IMG") (ascii "a.txt") (ascii "hello") 7) 3
      ≤ (storeFileInImage storeApart (ascii "IMG") (ascii "a.txt") (ascii "hello") 7).length ∧
    retrieveFileFromImage envAccept
      (storeFileInImage storeApart (ascii "IMG") (ascii "a.txt") (ascii "hello") 7) 3 7 =
      ⟨false, .retrieved (ascii "a.txt") (ascii "recovered_a.txt") (ascii "hello")⟩ ∧
    retrieveFileFromImage envAccept
      (withSignature (storeFileInImage storeApart (ascii "IMG") (ascii "a.txt") (ascii "hello") 7) 3
        (ascii "XXXXXXXX")) 3 7 =
      ⟨true, .retrieved (ascii "a.txt") (ascii "recovered_a.txt") (ascii "hello")⟩ :=
  ⟨by decide, by decide,
    retrieve_ignores_signature envAccept
      (storeFileInImage storeApart (ascii "IMG") (ascii "a.txt") (ascii "hello") 7) (ascii "XXXXXXXX") 3 7
      (by decide) (by decide) (Or.inr rfl) rfl rfl⟩

/-! ## Lemmas on `rfind`, `extension` and `stem` -/

theorem rfind_some_isPrefix : ∀ (s pat : List Byte) (i : Nat),
    rfind s pat = some i → pat <+: s.drop i := by
  intro s
  induction s with
  | nil =>
    intro pat i h
    by_cases hp : pat = []
    · simp [hp]
    · simp [rfind, hp] at h
  | cons c cs ih =>
    intro pat i h
    simp only [rfind] at h
    cases hr : rfind cs pat with
    | some j =>
      rw [hr] at h
      simp only [Option.some.injEq] at h
      subst h
      simpa using ih pat j hr
    | none =>
      rw [hr] at h
      by_cases hp : pat <+: c :: cs
      · simp only [hp, if_true, Option.some.injEq] at h
        subst h
        simpa using hp
      · simp [hp] at h

theorem rfind_some_le : ∀ (s pat : List Byte) (i : Nat),
    rfind s pat = some i → i + pat.length ≤ s.length := by
  intro s pat i h
  have hp := (rfind_some_isPrefix s pat i h).length_le
  simp only [List.length_drop] at hp
  by_cases hi : i ≤ s.length
  · omega
  · exfalso
    have : ∀ (s : List Byte) (i : Nat), rfind s pat = some i → i ≤ s.length := by
      intro s
      induction s with
      | nil =>
        intro i h
        by_cases hp : pat = []
        · simp [rfind, hp] at h; omega
        · simp [rfind, hp] at h
      | cons c cs ih =>
        intro i h
        simp only [rfind] at h
        cases hr : rfind cs pat with
        | some j =>
          rw [hr] at h
          simp only [Option.some.injEq] at h
          have := ih j hr
          simp only [List.length_cons]
          omega
        | none =>
          rw [hr] at h
          by_cases hp : pat <+: c :: cs
          · simp only [hp, if_true, Option.some.injEq] at h
            omega
          · simp [hp] at h
    exact hi (this s i h)

theorem rfind_eq_none_iff : ∀ (s pat : List Byte), rfind s pat = none ↔ ¬ pat <:+: s := by
  intro s
  induction s with
  | nil =>
    intro pat
    by_cases hp : pat = []
    · simp [rfind, hp]
    · simp [rfind, hp]
  | cons c cs ih =>
    intro pat
    simp only [rfind, List.infix_cons_iff, not_or]
    cases hr : rfind cs pat with
    | some j =>
      have : pat <:+: cs := by
        by_contra hc
        rw [(ih pat).mpr hc] at hr
        exact Option.noConfusion hr
      simp [this]
    | none =>
      have hn := (ih pat).mp hr
      by_cases hp : pat <+: c :: cs
      · simp [hp]
      · simp [hp, hn]

theorem rfind_append_of_some (a s pat : List Byte) (i : Nat) (h : rfind s pat = some i) :
    rfind (a ++ s) pat = some (a.length + i) := by
  induction a with
  | nil => simpa using h
  | cons c cs ih =>
    have hc : rfind (c :: (cs ++ s)) pat = some (cs.length + i + 1) := by
      simp only [rfind, ih]
    rw [List.cons_append, hc, List.length_cons]
    congr 1
    omega

theorem rfind_cons_of_none (c : Byte) (cs pat : List Byte) (h : rfind cs pat = none)
    (hp : pat <+: c :: cs) : rfind (c :: cs) pat = some 0 := by
  simp [rfind, h, hp]

/-- The position found by `rfind` for a pattern that occurs at the end of `pre`
and nowhere later. -/
theorem rfind_last_occurrence (pre pat post : List Byte) (hpat : pat ≠ [])
    (hlast : ¬ pat <:+: (pat ++ post).tail) :
    rfind (pre ++ pat ++ post) pat = some pre.length := by
  rw [List.append_assoc]
  have h0 : rfind (pat ++ post) pat = some 0 := by
    cases hpp : pat with
    | nil => exact absurd hpp hpat
    | cons c cs =>
      rw [hpp] at hlast
      simp only [List.cons_append, List.tail_cons] at hlast ⊢
      exact rfind_cons_of_none c (cs ++ post) (c :: cs)
        ((rfind_eq_none_iff _ _).mpr hlast) (List.prefix_append _ _)
  simpa using rfind_append_of_some pre (pat ++ post) pat 0 h0

theorem extension_nil_or_dot (f : List Byte) :
    extension f = [] ∨ ∃ t, extension f = toByte 46 :: t := by
  unfold extension
  split
  · exact Or.inl rfl
  · split
    · exact Or.inl rfl
    · split
      · rename_i pos hr
        right
        have hp := rfind_some_isPrefix f [toByte 46] (pos + 1) hr
        obtain ⟨t, ht⟩ := hp
        exact ⟨t, by rw [← ht]; rfl⟩
      · exact Or.inl rfl

theorem stem_append_extension (f : List Byte) : stem f ++ extension f = f := by
  unfold stem extension
  split
  · rename_i h
    simp [h]
  · split
    · simp
    · split
      · exact List.take_append_drop _ _
      · simp

theorem take_sub_extension_length (f : List Byte) :
    f.take (f.length - (extension f).length) = stem f := by
  have h := stem_append_extension f
  have hl : f.length = (stem f).length + (extension f).length := by
    conv_lhs => rw [← h]
    simp
  rw [hl, Nat.add_sub_cancel]
  have e : f.take (stem f).length = (stem f ++ extension f).take (stem f).length := by rw [h]
  rw [e, List.take_left]

theorem outName_eq (base suffix forcedExt : List Byte) :
    make_output_same_dir.outName base suffix forcedExt =
      stem base ++ suffix ++ (if forcedExt = [] then extension base else forcedExt) := by
  simp only [make_output_same_dir.outName, take_sub_extension_length]
  by_cases he : extension base = []
  · have hs : stem base = base := by
      have h := stem_append_extension base
      rw [he, List.append_nil] at h
      exact h
    simp [he, hs]
  · simp [he]

/-- The extension of a name that ends with a period followed by characters
that are not periods. -/
theorem extension_append_dot (pre post : List Byte) (hpre : pre ≠ []) (hpost : post ≠ [])
    (hno : ¬ [toByte 46] <:+: post) :
    extension (pre ++ [toByte 46] ++ post) = [toByte 46] ++ post ∧
    stem (pre ++ [toByte 46] ++ post) = pre := by
  have hr : rfind (pre ++ [toByte 46] ++ post) [toByte 46] = some pre.length :=
    rfind_last_occurrence pre [toByte 46] post (by simp) (by simpa using hno)
  have hne : pre ++ [toByte 46] ++ post ≠ [] := by simp
  have hlen : ¬ ((pre ++ [toByte 46] ++ post).length ≤ 2 ∧
      (pre ++ [toByte 46] ++ post).head? = some (toByte 46)) := by
    intro h
    have h1 := h.1
    have hp1 : 0 < pre.length := List.length_pos.mpr hpre
    have hp2 : 0 < post.length := List.length_pos.mpr hpost
    simp only [List.length_append, List.length_singleton] at h1
    omega
  obtain ⟨n, hn⟩ : ∃ n, pre.length = n + 1 :=
    ⟨pre.length - 1, by have := List.length_pos.mpr hpre; omega⟩
  constructor
  · unfold extension
    rw [if_neg hne, if_neg hlen, hr, hn]
    simp only
    rw [← hn, List.append_assoc, List.drop_left]
  · unfold stem
    rw [if_neg hne, if_neg hlen, hr, hn]
    simp only
    rw [← hn, List.append_assoc, List.take_left]

theorem extension_enc_suffix (x : List Byte) :
    extension (x ++ ascii "_enc" ++ ascii ".enc") = ascii ".enc" := by
  have h := (extension_append_dot (x ++ ascii "_enc") (ascii "enc") (by simp [ascii])
    (by decide) (by decide)).1
  have e : x ++ ascii "_enc" ++ ascii ".enc" = x ++ ascii "_enc" ++ [toByte 46] ++ ascii "enc" := by
    rw [List.append_assoc (x ++ ascii "_enc")]
    rfl
  rw [e, h]
  rfl

theorem ascii_enc_marker : ascii "_enc" = [toByte 95, toByte 101, toByte 110, toByte 99] := by
  decide

theorem enc_marker_not_in_tail (post : List Byte) (h : ¬ ascii "_enc" <:+: post) :
    ¬ ascii "_enc" <:+: (ascii "_enc" ++ post).tail := by
  rw [ascii_enc_marker] at h ⊢
  simp only [List.cons_append, List.nil_append, List.tail_cons, List.infix_cons_iff,
    List.cons_prefix_cons, not_or]
  refine ⟨?_, ?_, ?_, h⟩ <;> intro hc <;> exact absurd hc.1 (by decide)

theorem decryptOutName_marker_enc (base : List Byte) (i : Nat)
    (hr : rfind base (ascii "_enc") = some i) (hext : extension base = ascii ".enc") :
    FileCrypto.decryptOutName base = base.take i := by
  simp only [FileCrypto.decryptOutName, hr, hext, if_true]
  split
  · exact stem_append_extension _
  · rfl

theorem decryptOutName_marker_other (base : List Byte) (i : Nat)
    (hr : rfind base (ascii "_enc") = some i) (hext : extension base ≠ ascii ".enc") :
    FileCrypto.decryptOutName base = base.take i ++ extension base := by
  simp only [FileCrypto.decryptOutName, hr, hext, if_false]

theorem decryptOutName_no_marker (base : List Byte) (hr : rfind base (ascii "_enc") = none) :
    FileCrypto.decryptOutName base =
      if base.length > 4 ∧ base.drop (base.length - 4) = ascii ".enc" then
        base.take (base.length - 4)
      else base ++ ascii "_dec" := by
  simp only [FileCrypto.decryptOutName, hr]

theorem outName_ne_base (base t forcedExt : List Byte) :
    make_output_same_dir.outName base (toByte 95 :: t) forcedExt ≠ base := by
  rw [outName_eq]
  intro h
  have hb := stem_append_extension base
  have h1 : stem base ++ ((toByte 95 :: t) ++
      (if forcedExt = [] then extension base else forcedExt))
      = stem base ++ extension base := by
    rw [← List.append_assoc, hb]
    exact h
  have h2 := List.append_cancel_left h1
  rcases extension_nil_or_dot base with he | ⟨u, he⟩
  · rw [he] at h2
    simp at h2
  · rw [he] at h2
    simp only [List.cons_append, List.cons.injEq] at h2
    exact absurd h2.1 (by decide)

theorem decryptOutName_ne_base (base : List Byte) : FileCrypto.decryptOutName base ≠ base := by
  cases hr : rfind base (ascii "_enc") with
  | some i =>
    have hle := rfind_some_le base _ i hr
    have hlen4 : (ascii "_enc").length = 4 := by decide
    rw [hlen4] at hle
    by_cases hext : extension base = ascii ".enc"
    · rw [decryptOutName_marker_enc base i hr hext]
      intro h
      have := congrArg List.length h
      simp only [List.length_take] at this
      omega
    · rw [decryptOutName_marker_other base i hr hext]
      intro h
      have hsplit : base.take i ++ base.drop i = base := List.take_append_drop i base
      have h2 : extension base = base.drop i := by
        have h3 : base.take i ++ extension base = base.take i ++ base.drop i := by
          rw [h, hsplit]
        exact List.append_cancel_left h3
      have hp := rfind_some_isPrefix base _ i hr
      rw [← h2, ascii_enc_marker] at hp
      rcases extension_nil_or_dot base with he | ⟨u, he⟩
      · rw [he] at hp
        simp at hp
      · rw [he] at hp
        simp only [List.cons_prefix_cons] at hp
        exact absurd hp.1 (by decide)
  | none =>
    rw [decryptOutName_no_marker base hr]
    split
    · rename_i hc
      intro h
      have := congrArg List.length h
      simp only [List.length_take] at this
      omega
    · intro h
      have := congrArg List.length h
      simp [ascii] at this

/-! ## Lemmas on the encoder output and on the password hash -/

theorem rfc4648Encode_length : ∀ d : List Byte,
    (rfc4648Encode d).length = 4 * ((d.length + 2) / 3)
  | [] => rfl
  | [_] => by simp [rfc4648Encode]
  | [_, _] => by simp [rfc4648Encode]
  | _ :: _ :: _ :: rest => by
    simp only [rfc4648Encode, List.length_cons, rfc4648Encode_length rest]
    omega

theorem sym_isAlphabetChar : ∀ i : Fin 64, isAlphabetChar (sym i.val) = true := by
  decide

theorem sym_ok (n : Nat) (h : n < 64) :
    (isAlphabetChar (sym n) || sym n == toByte 61) = true := by
  have := sym_isAlphabetChar ⟨n, h⟩
  simp only at this
  simp [this]

theorem rfc4648Encode_all : ∀ d : List Byte,
    (rfc4648Encode d).all (fun c => isAlphabetChar c || c == toByte 61) = true
  | [] => rfl
  | [a] => by
    have ha := a.isLt
    simp only [rfc4648Encode, List.all_cons, List.all_nil, Bool.and_true, Bool.and_eq_true]
    exact ⟨sym_ok _ (by omega), sym_ok _ (by omega), by decide, by decide⟩
  | [a, b] => by
    have ha := a.isLt
    have hb := b.isLt
    simp only [rfc4648Encode, List.all_cons, List.all_nil, Bool.and_true, Bool.and_eq_true]
    exact ⟨sym_ok _ (by omega), sym_ok _ (by omega), sym_ok _ (by omega), by decide⟩
  | a :: b :: c :: rest => by
    have ha := a.isLt
    have hb := b.isLt
    have hc := c.isLt
    simp only [rfc4648Encode, List.all_cons, Bool.and_eq_true]
    exact ⟨sym_ok _ (by omega), sym_ok _ (by omega), sym_ok _ (by omega), sym_ok _ (by omega),
      rfc4648Encode_all rest⟩

theorem wrap32_step (x : Int) (c : Nat) :
    wrap32 (wrap32 (wrap32 x * 256) + c) = wrap32 (x * 256 + c) := by
  unfold wrap32
  omega

/-- The accumulator `val` at the end of the encoder loop is the wrapped
base-256 number of all the bytes taken. -/
theorem encode_loop_val : ∀ (d : List Byte) (x valb : Int) (enc : List Byte),
    (base64Encode.loop d (wrap32 x) valb enc).1 =
      wrap32 (d.foldl (fun v c => v * 256 + (c.val : Int)) x)
  | [], x, valb, enc => rfl
  | c :: rest, x, valb, enc => by
    simp only [base64Encode.loop, List.foldl_cons]
    rw [wrap32_step x c.val]
    exact encode_loop_val rest _ _ _

theorem hash_step_le (h c : Nat) (hc : c < 256) :
    (((h <<< 5) % 2 ^ 64 + h) % 2 ^ 64 + c) % 2 ^ 64 + 8 ≤ 33 * (h + 8) := by
  have e : h <<< 5 = h * 32 := by rw [Nat.shiftLeft_eq]
  rw [e]
  have h1 : (h * 32) % 2 ^ 64 ≤ h * 32 := Nat.mod_le _ _
  have h2 : ((h * 32) % 2 ^ 64 + h) % 2 ^ 64 ≤ (h * 32) % 2 ^ 64 + h := Nat.mod_le _ _
  have h3 : (((h * 32) % 2 ^ 64 + h) % 2 ^ 64 + c) % 2 ^ 64
      ≤ ((h * 32) % 2 ^ 64 + h) % 2 ^ 64 + c := Nat.mod_le _ _
  omega

theorem hash_fold_le : ∀ (pw : List Byte) (h : Nat),
    pw.foldl (fun hash c => (((hash <<< 5) % 2 ^ 64 + hash) % 2 ^ 64 + c.val) % 2 ^ 64) h + 8
      ≤ 33 ^ pw.length * (h + 8)
  | [], h => by simp
  | c :: rest, h => by
    simp only [List.foldl_cons, List.length_cons]
    have ih := hash_fold_le rest ((((h <<< 5) % 2 ^ 64 + h) % 2 ^ 64 + c.val) % 2 ^ 64)
    have hs := hash_step_le h c.val c.isLt
    calc _ ≤ 33 ^ rest.length * ((((h <<< 5) % 2 ^ 64 + h) % 2 ^ 64 + c.val) % 2 ^ 64 + 8) := ih
      _ ≤ 33 ^ rest.length * (33 * (h + 8)) := Nat.mul_le_mul_left _ hs
      _ = 33 ^ (rest.length + 1) * (h + 8) := by ring

theorem customHash_lt (pw : List Byte) (hlen : pw.length ≤ 8) :
    UserManager.customHash pw < 2 ^ 56 := by
  have h := hash_fold_le pw 5381
  have hp : 33 ^ pw.length ≤ 33 ^ 8 := Nat.pow_le_pow_right (by norm_num) hlen
  have h2 : 33 ^ pw.length * (5381 + 8) ≤ 33 ^ 8 * (5381 + 8) := Nat.mul_le_mul_right _ hp
  have h3 : 33 ^ 8 * (5381 + 8) < 2 ^ 56 := by norm_num
  unfold UserManager.customHash
  omega

theorem keyByte7_of_lt (key : Nat) (h : key < 2 ^ 56) (i : Nat) (hi : i % 8 = 7) :
    keyByteFromKey key i = toByte 0 := by
  apply Fin.ext
  rw [keyByteFromKey_val, hi]
  have : key / 256 ^ 7 = 0 := by
    apply Nat.div_eq_of_lt
    calc key < 2 ^ 56 := h
      _ = 256 ^ 7 := by norm_num
  rw [this]
  rfl

theorem applyXor_of_keyByte_zero (x : Byte) (key i : Nat) (h : keyByteFromKey key i = toByte 0) :
    applyXor x key i = x := by
  simp only [applyXor, h]
  apply Fin.ext
  simp [toByte_val, Nat.mod_eq_of_lt x.isLt]

/-! ## Output paths and input paths -/

theorem pathJoin_ne (dir a b : List Byte) (hab : a ≠ b)
    (hhead : a.head? = some (toByte 47) ↔ b.head? = some (toByte 47)) :
    pathJoin dir a ≠ pathJoin dir b := by
  by_cases ha : a.head? = some (toByte 47)
  · have hb := hhead.mp ha
    simp only [pathJoin, ha, hb, if_true]
    exact hab
  · have hb : ¬ b.head? = some (toByte 47) := fun h => ha (hhead.mpr h)
    simp only [pathJoin, ha, hb, if_false]
    split
    · intro h
      exact hab (List.append_cancel_left h)
    · intro h
      exact hab (List.append_cancel_left h)

theorem head_iff_of_prefix_append (p r base : List Byte) (hp : p <+: base)
    (hr : r.head? ≠ some (toByte 47)) (hb : p = [] → base.head? ≠ some (toByte 47)) :
    ((p ++ r).head? = some (toByte 47) ↔ base.head? = some (toByte 47)) := by
  cases p with
  | nil =>
    have h1 := hb rfl
    simp only [List.nil_append]
    exact ⟨fun h => absurd h hr, fun h => absurd h h1⟩
  | cons c cs =>
    obtain ⟨t, ht⟩ := hp
    rw [← ht]
    simp

theorem extension_head_ne_sep (f : List Byte) : (extension f).head? ≠ some (toByte 47) := by
  rcases extension_nil_or_dot f with he | ⟨u, he⟩
  · rw [he]
    simp
  · rw [he]
    simp only [List.head?_cons, ne_eq, Option.some.injEq]
    decide

theorem outName_head_iff (base t forcedExt : List Byte) :
    ((make_output_same_dir.outName base (toByte 95 :: t) forcedExt).head? = some (toByte 47)
      ↔ base.head? = some (toByte 47)) := by
  rw [outName_eq, List.append_assoc]
  apply head_iff_of_prefix_append
  · exact ⟨extension base, stem_append_extension base⟩
  · simp only [List.cons_append, List.head?_cons, ne_eq, Option.some.injEq]
    decide
  · intro hs
    have hb := stem_append_extension base
    rw [hs, List.nil_append] at hb
    rw [← hb]
    exact extension_head_ne_sep base

theorem decryptOutName_head_iff (base : List Byte) :
    ((FileCrypto.decryptOutName base).head? = some (toByte 47)
      ↔ base.head? = some (toByte 47)) := by
  cases hr : rfind base (ascii "_enc") with
  | some i =>
    have hle := rfind_some_le base _ i hr
    have hlen4 : (ascii "_enc").length = 4 := by decide
    rw [hlen4] at hle
    have hpre := rfind_some_isPrefix base _ i hr
    have hempty : base.take i = [] → base.head? ≠ some (toByte 47) := by
      intro ht
      have hi : i = 0 := by
        have := congrArg List.length ht
        simp only [List.length_take, List.length_nil] at this
        omega
      rw [hi, List.drop_zero, ascii_enc_marker] at hpre
      obtain ⟨u, hu⟩ := hpre
      rw [← hu]
      simp only [List.cons_append, List.head?_cons, ne_eq, Option.some.injEq]
      decide
    by_cases hext : extension base = ascii ".enc"
    · rw [decryptOutName_marker_enc base i hr hext]
      have h := head_iff_of_prefix_append (base.take i) [] base (List.take_prefix i base)
        (by simp) hempty
      rwa [List.append_nil] at h
    · rw [decryptOutName_marker_other base i hr hext]
      exact head_iff_of_prefix_append (base.take i) (extension base) base
        (List.take_prefix i base) (extension_head_ne_sep base) hempty
  | none =>
    rw [decryptOutName_no_marker base hr]
    split
    · rename_i hc
      have h := head_iff_of_prefix_append (base.take (base.length - 4)) [] base
        (List.take_prefix _ base) (by simp) (by
          intro ht
          have := congrArg List.length ht
          simp only [List.length_take, List.length_nil] at this
          omega)
      rwa [List.append_nil] at h
    · apply head_iff_of_prefix_append base (ascii "_dec") base (List.prefix_refl base)
      · decide
      · intro hb
        rw [hb]
        simp

/-! ## Properties of the Base64 encoder -/

/-- C11: for every byte sequence of `n` bytes, `base64Encode` returns a string
of exactly `4 * ceil(n / 3)` characters, a multiple of 4, every character of
which is one of `A-Z`, `a-z`, `0-9`, `+`, `/` or the padding `=`; the empty
input gives the empty string. -/
theorem base64Encode_length_and_alphabet (d : List Byte) :
    (base64Encode d).length = 4 * ((d.length + 2) / 3) ∧
    (base64Encode d).length % 4 = 0 ∧
    (base64Encode d).all (fun c => isAlphabetChar c || c == toByte 61) = true ∧
    base64Encode [] = [] := by
  rw [base64Encode_eq_rfc4648Encode]
  refine ⟨rfc4648Encode_length d, ?_, rfc4648Encode_all d, ?_⟩
  · rw [rfc4648Encode_length]
    omega
  · rw [base64Encode_eq_rfc4648Encode]
    rfl

/-- C16: for every byte sequence, `base64Encode` returns the standard padded
Base64 encoding of RFC 4648 (`rfc4648Encode`), although its accumulator `val`
takes every byte shifted in without masking and wraps modulo `2 ^ 32`: at the
end of the loop it is the wrapped base-256 number of the whole input, which
for four bytes `0xFF` is `-1` and not `2 ^ 32 - 1`. -/
theorem base64Encode_is_rfc4648 (d : List Byte) :
    base64Encode d = rfc4648Encode d ∧
    (base64Encode.loop d 0 (-6) []).1 = wrap32 (beValue d) ∧
    (base64Encode.loop [toByte 255, toByte 255, toByte 255, toByte 255] 0 (-6) []).1 = -1 ∧
    beValue [toByte 255, toByte 255, toByte 255, toByte 255] = 2 ^ 32 - 1 := by
  refine ⟨base64Encode_eq_rfc4648Encode d, ?_, by decide, by decide⟩
  have h := encode_loop_val d 0 (-6) []
  have h0 : wrap32 0 = 0 := by decide
  rw [h0] at h
  exact h

/-! ## Properties of the key derivation -/

/-- C17: for every password of at most 8 bytes the derived key
`customHash(password)` is below `2 ^ 56`, so `keyByteFromKey(key, 7)` is 0 and
the transform leaves the input byte at every position `i` with `i mod 8 = 7`
unchanged. -/
theorem short_password_leaves_byte7 (password input : List Byte) (i : Nat)
    (hlen : password.length ≤ 8) (hi : i % 8 = 7) :
    UserManager.getKey password < 2 ^ 56 ∧
    keyByteFromKey (UserManager.getKey password) 7 = toByte 0 ∧
    (FileCrypto.encrypt input (UserManager.getKey password))[i]? = input[i]? := by
  have hk : UserManager.getKey password < 2 ^ 56 := customHash_lt password hlen
  refine ⟨hk, keyByte7_of_lt _ hk 7 rfl, ?_⟩
  have hz := keyByte7_of_lt _ hk i hi
  rw [FileCrypto.encrypt, xorLoop_zero_getElem?]
  cases input[i]? with
  | none => rfl
  | some x => simp [applyXor_of_keyByte_zero x _ i hz]

/-- Witness of C17: the password `admin123` and byte 7 of the input
`ABCDEFGH`. -/
theorem short_password_leaves_byte7_witness :
    (ascii "admin123").length ≤ 8 ∧ 7 % 8 = 7 ∧
    UserManager.getKey (ascii "admin123") < 2 ^ 56 ∧
    (FileCrypto.encrypt (ascii "ABCDEFGH") (UserManager.getKey (ascii "admin123")))[7]?
      = (ascii "ABCDEFGH")[7]? :=
  ⟨by decide, by decide,
    (short_password_leaves_byte7 (ascii "admin123") (ascii "ABCDEFGH") 7
      (by decide) (by decide)).1,
    (short_password_leaves_byte7 (ascii "admin123") (ascii "ABCDEFGH") 7
      (by decide) (by decide)).2.2⟩

/-! ## Properties of the output naming -/

/-- C12 as stated fails: the input name `notes.enc` has the extension `.enc`,
the file-encrypt output name is `notes_enc.enc`, and the original extension
does appear in it. -/
theorem encrypt_name_can_contain_extension :
    extension (ascii "notes.enc") = ascii ".enc" ∧
    FileCrypto.encryptOutName (ascii "notes.enc") = ascii "notes_enc.enc" ∧
    extension (ascii "notes.enc") <:+: FileCrypto.encryptOutName (ascii "notes.enc") := by
  refine ⟨by decide, by decide, ?_⟩
  exact ⟨ascii "notes_enc", [], by decide⟩

/-- C12, amended: for every input path, with directory `dir` and base name
`base`, the file-encrypt output path is `dir / (stem + "_enc" + ".enc")`, where
`stem` is the base name with its extension removed; the extension of the
output name is `.enc` whatever the original extension was (`report.pdf` gives
`report_enc.enc`). -/
theorem encrypt_out_path_eq (dir base : List Byte) :
    FileCrypto.encryptOutPath dir base
      = pathJoin dir (stem base ++ ascii "_enc" ++ ascii ".enc") ∧
    FileCrypto.encryptOutName base = stem base ++ ascii "_enc" ++ ascii ".enc" ∧
    stem base ++ extension base = base ∧
    extension (FileCrypto.encryptOutName base) = ascii ".enc" ∧
    FileCrypto.encryptOutName (ascii "report.pdf") = ascii "report_enc.enc" := by
  have hn : FileCrypto.encryptOutName base = stem base ++ ascii "_enc" ++ ascii ".enc" := by
    rw [FileCrypto.encryptOutName, outName_eq]
    simp [ascii]
  refine ⟨?_, hn, stem_append_extension base, ?_, by decide⟩
  · rw [← hn]
    rfl
  · rw [hn]
    exact extension_enc_suffix (stem base)

/-- C13: for every base name that contains `_enc` (written as
`pre ++ "_enc" ++ post` with no `_enc` in `post`, so that `pre` is what stands
before the last occurrence) and whose extension is exactly `.enc`, the
file-decrypt output name is `pre`; the inner-extension branch
(`stem + origExt`) and the fallback branch give the same string. -/
theorem decrypt_name_strips_marker (base pre post : List Byte)
    (hbase : base = pre ++ ascii "_enc" ++ post) (hlast : ¬ ascii "_enc" <:+: post)
    (hext : extension base = ascii ".enc") :
    FileCrypto.decryptOutName base = pre ∧
    stem pre ++ extension pre = pre ∧
    (if extension pre ≠ [] then stem pre ++ extension pre else pre) = pre := by
  have hr : rfind base (ascii "_enc") = some pre.length := by
    rw [hbase]
    exact rfind_last_occurrence pre (ascii "_enc") post (by decide)
      (enc_marker_not_in_tail post hlast)
  refine ⟨?_, stem_append_extension pre, ?_⟩
  · rw [decryptOutName_marker_enc base pre.length hr hext, hbase, List.append_assoc,
      List.take_left]
  · split
    · exact stem_append_extension pre
    · rfl

/-- Witness of C13: `name.pdf_enc.enc` gives `name.pdf` and `report_enc.enc`
gives `report`. -/
theorem decrypt_name_strips_marker_witness :
    (extension (ascii "name.pdf_enc.enc") = ascii ".enc" ∧
      FileCrypto.decryptOutName (ascii "name.pdf_enc.enc") = ascii "name.pdf") ∧
    (extension (ascii "report_enc.enc") = ascii ".enc" ∧
      FileCrypto.decryptOutName (ascii "report_enc.enc") = ascii "report") :=
  ⟨⟨by decide,
      (decrypt_name_strips_marker (ascii "name.pdf_enc.enc") (ascii "name.pdf") (ascii ".enc")
        (by decide) (by decide) (by decide)).1⟩,
    ⟨by decide,
      (decrypt_name_strips_marker (ascii "report_enc.enc") (ascii "report") (ascii ".enc")
        (by decide) (by decide) (by decide)).1⟩⟩

/-- C14 as stated fails: the base name `.enc` does not contain `_enc` and ends
in `.enc`, but the file-decrypt output name is `.enc_dec`, not the name with
its trailing 4 characters stripped (the empty name). -/
theorem decrypt_name_of_bare_enc :
    ¬ ascii "_enc" <:+: ascii ".enc" ∧
    ascii ".enc" <:+ ascii ".enc" ∧
    FileCrypto.decryptOutName (ascii ".enc") = ascii ".enc_dec" ∧
    FileCrypto.decryptOutName (ascii ".enc")
      ≠ (ascii ".enc").take ((ascii ".enc").length - 4) := by
  refine ⟨by decide, List.suffix_refl _, by decide, by decide⟩

/-- C14, amended: for every base name longer than 4 characters that does not
contain `_enc` and ends in the literal `.enc` (`base = pre ++ ".enc"` with
`pre` not empty), the file-decrypt output name is the base name with its
trailing 4 characters stripped, that is, `pre`; the 4-character name `.enc`
gets `_dec` appended instead. -/
theorem decrypt_name_strips_enc_suffix (base pre : List Byte)
    (hno : ¬ ascii "_enc" <:+: base) (hbase : base = pre ++ ascii ".enc") (hpre : pre ≠ []) :
    FileCrypto.decryptOutName base = pre ∧
    FileCrypto.decryptOutName base = base.take (base.length - 4) ∧
    FileCrypto.decryptOutName (ascii ".enc") = ascii ".enc_dec" := by
  have hr : rfind base (ascii "_enc") = none := (rfind_eq_none_iff _ _).mpr hno
  have hl : (ascii ".enc").length = 4 := by decide
  have hlen : base.length = pre.length + 4 := by rw [hbase, List.length_append, hl]
  have hpos : 0 < pre.length := List.length_pos.mpr hpre
  have htake : base.take (base.length - 4) = pre := by
    rw [hlen, Nat.add_sub_cancel, hbase, List.take_left]
  have hdrop : base.drop (base.length - 4) = ascii ".enc" := by
    rw [hlen, Nat.add_sub_cancel, hbase, List.drop_left]
  have hcond : base.length > 4 ∧ base.drop (base.length - 4) = ascii ".enc" :=
    ⟨by omega, hdrop⟩
  have hd : FileCrypto.decryptOutName base = base.take (base.length - 4) := by
    rw [decryptOutName_no_marker base hr, if_pos hcond]
  exact ⟨by rw [hd, htake], hd, by decide⟩

/-- Witness of C14, amended: `file.pdf.enc` gives `file.pdf`. -/
theorem decrypt_name_strips_enc_suffix_witness :
    ¬ ascii "_enc" <:+: ascii "file.pdf.enc" ∧
    ascii "file.pdf.enc" = ascii "file.pdf" ++ ascii ".enc" ∧
    FileCrypto.decryptOutName (ascii "file.pdf.enc") = ascii "file.pdf" :=
  ⟨by decide, by decide,
    (decrypt_name_strips_enc_suffix (ascii "file.pdf.enc") (ascii "file.pdf")
      (by decide) (by decide) (by decide)).1⟩

/-- C15 as stated fails: for the carrier `photo.png` in the directory `pics`
the container path is `pics/photo_stego.png`, not `pics/photo_enc.png`. -/
theorem store_out_path_has_stego_suffix :
    Stego.storeOutPath (ascii "pics") (ascii "photo.png") = ascii "pics/photo_stego.png" ∧
    pathJoin (ascii "pics")
        (stem (ascii "photo.png") ++ ascii "_enc" ++ extension (ascii "photo.png"))
      = ascii "pics/photo_enc.png" ∧
    Stego.storeOutPath (ascii "pics") (ascii "photo.png") ≠ ascii "pics/photo_enc.png" := by
  decide

/-- C15, amended: for every carrier path, with directory `dir` and base name
`base`, the container output path chosen by `storeFileInImage` is
`dir / (stem + "_stego" + ext)`, where `ext` is the extension of the carrier,
or `.img` when the carrier has no extension. -/
theorem store_out_path_eq (dir base : List Byte) :
    Stego.storeOutPath dir base =
      pathJoin dir (stem base ++ ascii "_stego" ++
        (if extension base = [] then ascii ".img" else extension base)) ∧
    Stego.storeOutPath (ascii "pics") (ascii "photo") = ascii "pics/photo_stego.img" := by
  refine ⟨?_, by decide⟩
  rw [Stego.storeOutPath, make_output_same_dir, outName_eq]
  by_cases he : extension base = []
  · simp [he, ascii]
  · simp [he, ascii]

/-- C18: for every input base name `b`, the file-decrypt output name computed
from the file-encrypt output name of `b` is the stem of `b`; it is `b` itself
exactly when `b` has no extension, so an extension is never restored
(`report.pdf` gives `report_enc.enc`, which gives `report`). -/
theorem encrypt_decrypt_name_gives_stem (b : List Byte) :
    FileCrypto.decryptOutName (FileCrypto.encryptOutName b) = stem b ∧
    (FileCrypto.decryptOutName (FileCrypto.encryptOutName b) = b ↔ extension b = []) ∧
    FileCrypto.encryptOutName (ascii "report.pdf") = ascii "report_enc.enc" ∧
    FileCrypto.decryptOutName (ascii "report_enc.enc") = ascii "report" := by
  have hn : FileCrypto.encryptOutName b = stem b ++ ascii "_enc" ++ ascii ".enc" := by
    rw [FileCrypto.encryptOutName, outName_eq]
    simp [ascii]
  have hr : rfind (stem b ++ ascii "_enc" ++ ascii ".enc") (ascii "_enc")
      = some (stem b).length :=
    rfind_last_occurrence (stem b) (ascii "_enc") (ascii ".enc") (by decide) (by decide)
  have hd : FileCrypto.decryptOutName (FileCrypto.encryptOutName b) = stem b := by
    rw [hn, decryptOutName_marker_enc _ _ hr (extension_enc_suffix (stem b)),
      List.append_assoc, List.take_left]
  refine ⟨hd, ?_, by decide, by decide⟩
  rw [hd]
  have hs := stem_append_extension b
  constructor
  · intro h
    rw [h] at hs
    exact List.append_right_eq_self.mp hs
  · intro h
    rw [h, List.append_nil] at hs
    exact hs

/-- C19: for every input path, with directory `dir` and base name `base`, each
operation creates its output in the directory of the input, under a base name
that differs from the input base name, so that the output path differs from
the path `dir / base` of the input: image encrypt, image decrypt, file
encrypt, file decrypt (in each of its three naming cases) and stego store. -/
theorem output_name_differs_from_input (dir base : List Byte) :
    (ImageCrypto.encryptOutPath dir base = pathJoin dir (ImageCrypto.encryptOutName base) ∧
      ImageCrypto.encryptOutName base ≠ base ∧
      ImageCrypto.encryptOutPath dir base ≠ pathJoin dir base) ∧
    (ImageCrypto.decryptOutPath dir base = pathJoin dir (ImageCrypto.decryptOutName base) ∧
      ImageCrypto.decryptOutName base ≠ base ∧
      ImageCrypto.decryptOutPath dir base ≠ pathJoin dir base) ∧
    (FileCrypto.encryptOutPath dir base = pathJoin dir (FileCrypto.encryptOutName base) ∧
      FileCrypto.encryptOutName base ≠ base ∧
      FileCrypto.encryptOutPath dir base ≠ pathJoin dir base) ∧
    (FileCrypto.decryptOutPath dir base = pathJoin dir (FileCrypto.decryptOutName base) ∧
      FileCrypto.decryptOutName base ≠ base ∧
      FileCrypto.decryptOutPath dir base ≠ pathJoin dir base) ∧
    (Stego.storeOutPath dir base = pathJoin dir (Stego.storeOutName base) ∧
      Stego.storeOutName base ≠ base ∧
      Stego.storeOutPath dir base ≠ pathJoin dir base) := by
  have e1 : ascii "_enc" = toByte 95 :: ascii "enc" := by decide
  have e2 : ascii "_dec" = toByte 95 :: ascii "dec" := by decide
  have e3 : ascii "_stego" = toByte 95 :: ascii "stego" := by decide
  have make : ∀ t forcedExt : List Byte,
      make_output_same_dir.outName base (toByte 95 :: t) forcedExt ≠ base ∧
      make_output_same_dir dir base (toByte 95 :: t) forcedExt ≠ pathJoin dir base := by
    intro t forcedExt
    exact ⟨outName_ne_base base t forcedExt,
      pathJoin_ne dir _ _ (outName_ne_base base t forcedExt) (outName_head_iff base t forcedExt)⟩
  refine ⟨⟨rfl, ?_⟩, ⟨rfl, ?_⟩, ⟨rfl, ?_⟩, ⟨rfl, decryptOutName_ne_base base, ?_⟩, ⟨rfl, ?_⟩⟩
  · rw [ImageCrypto.encryptOutName, ImageCrypto.encryptOutPath, e1]
    exact make _ _
  · rw [ImageCrypto.decryptOutName, ImageCrypto.decryptOutPath, e2]
    exact make _ _
  · rw [FileCrypto.encryptOutName, FileCrypto.encryptOutPath, e1]
    exact make _ _
  · exact pathJoin_ne dir _ _ (decryptOutName_ne_base base) (decryptOutName_head_iff base)
  · rw [Stego.storeOutName, Stego.storeOutPath, e3]
    exact make _ _

end StealthLock
